import Mathlib

/-!
Shallow embedding of `pltform/utils.py` (the bfp repository): the `Config`
class (YAML profile/section/parameter aggregation), `rankdata`, `parse_argv`
with its inner `typecast`, and `replace_tokens`.

Modelling conventions:
  * Python `dict` (insertion ordered, string keys here) is an association
    list `List (String × α)`; writing an existing key updates the value in
    place, a new key is appended at the end.
  * Python values produced by `typecast` live in the inductive `PyVal`;
    Python `float` is modelled by `ℚ` (every value arising here is exact).
  * Fallible Python code (raising) returns `Except String _`; code that
    first mutates and then may raise returns the mutated state alongside.
  * Character classes (`str.isdecimal`, `str.isnumeric`, `\p{Lu}`, `\d`)
    are modelled over the character fragment exercised by this code base:
    ASCII, plus two representative non-decimal Unicode numerics so that
    the gap between `isdecimal` and `isnumeric` is preserved.
-/

namespace BFP

/-- Values produced by `typecast` in `parse_argv`: Python int, float, bool,
None, or the unchanged string. -/
inductive PyVal where
  | int (n : Int)
  | float (q : ℚ)
  | bool (b : Bool)
  | none
  | str (s : String)
deriving DecidableEq

instance {ε α : Type} [DecidableEq ε] [DecidableEq α] : DecidableEq (Except ε α) := fun x y =>
  match x, y with
  | Except.ok a, Except.ok b => decidable_of_iff (a = b) (by simp)
  | Except.ok _, Except.error _ => isFalse (by simp)
  | Except.error _, Except.ok _ => isFalse (by simp)
  | Except.error e, Except.error f => decidable_of_iff (e = f) (by simp)

/-- Python `dict` with string keys: an insertion-ordered association list. -/
abbrev Dict (α : Type) := List (String × α)

/-- `k in d` for a Python dict. -/
def dictHas {α : Type} (d : Dict α) (k : String) : Bool :=
  d.any (fun e => e.1 == k)

/-- `d.get(k)` returning `none` when the key is absent. -/
def dictGet? {α : Type} (d : Dict α) (k : String) : Option α :=
  (d.find? (fun e => e.1 == k)).map Prod.snd

/-- `d.get(k, v₀)`. -/
def dictGetD {α : Type} (d : Dict α) (k : String) (v₀ : α) : α :=
  (dictGet? d k).getD v₀

/-- `d[k] = v`: overwrite the value in place when the key exists, append a
new binding otherwise (Python dicts keep the original key position). -/
def dictInsert {α : Type} (d : Dict α) (k : String) (v : α) : Dict α :=
  if dictHas d k then d.map (fun e => if e.1 == k then (k, v) else e)
  else d ++ [(k, v)]

/-- `d.update(src)`: fold every binding of `src` into `d`, overwriting at
key granularity. -/
def dictUpdate {α : Type} (d src : Dict α) : Dict α :=
  src.foldl (fun acc e => dictInsert acc e.1 e.2) d

/-- ASCII lower-casing of one character (`str.lower` on the fragment used
by the source: token names and the literals tested by `typecast`). -/
def lowerChar (c : Char) : Char :=
  if 'A' ≤ c ∧ c ≤ 'Z' then Char.ofNat (c.toNat + 32) else c

/-- `s.lower()` over the modelled character fragment. -/
def pyLower (s : String) : String :=
  String.mk (s.toList.map lowerChar)

/-- A Unicode decimal-digit character (category Nd) in the modelled
fragment: the ASCII digits.  This is what `str.isdecimal` tests. -/
def decimalChar (c : Char) : Bool := c.isDigit

/-- A character Python counts as numeric (`str.isnumeric`): every decimal
digit plus the wider numeric categories (vulgar fractions, superscripts,
…), represented here by two witnesses of that wider class. -/
def numericChar (c : Char) : Bool :=
  c.isDigit || c = '½' || c = '²'

/-- `val.isdecimal()`: non-empty and every character a decimal digit.
Note that a sign character is *not* decimal. -/
def pyIsDecimal (val : String) : Bool :=
  !val.toList.isEmpty && val.toList.all decimalChar

/-- `val.isnumeric()`: non-empty and every character numeric. -/
def pyIsNumeric (val : String) : Bool :=
  !val.toList.isEmpty && val.toList.all numericChar

/-- Base-10 value of a digit list (what Python `int` yields on a string of
ASCII decimal digits). -/
def digitsToNat (l : List Char) : ℕ :=
  l.foldl (fun n c => 10 * n + (c.toNat - 48)) 0

/-- Python `float(s)` on the fragment that matters here: an optional sign,
ASCII digits and at most one decimal point (exponents, underscores and
whitespace never reach the one call site).  Any other character — in
particular every non-decimal Unicode numeric — makes the conversion raise,
modelled by `none`. -/
def pyFloatChars (l : List Char) : Option ℚ :=
  let sign : ℚ := if l.head? = some '-' then -1 else 1
  let body : List Char := if l.head? = some '-' ∨ l.head? = some '+' then l.tail else l
  let ip := body.takeWhile Char.isDigit
  match body.dropWhile Char.isDigit with
  | [] => if ip.isEmpty then Option.none else some (sign * digitsToNat ip)
  | c :: frac =>
    if c = '.' ∧ (!ip.isEmpty || !frac.isEmpty) ∧ frac.all Char.isDigit then
      some (sign * ((digitsToNat ip : ℚ) + digitsToNat frac / 10 ^ frac.length))
    else Option.none

/-- Python `float(val)` (see `pyFloatChars`). -/
def pyFloatOfString (val : String) : Option ℚ := pyFloatChars val.toList

/-- The inner `typecast` of `parse_argv`: try `isdecimal` → int, then
`isnumeric` → float (a raising conversion is an error), then the boolean
and null literal lists, then the non-empty string itself, else None. -/
def typecast (val : String) : Except String PyVal :=
  if pyIsDecimal val then Except.ok (PyVal.int (digitsToNat val.toList))
  else if pyIsNumeric val then
    match pyFloatOfString val with
    | some q => Except.ok (PyVal.float q)
    | Option.none => Except.error "ValueError: could not convert string to float"
  else if pyLower val ∈ (["false", "f", "no", "n"] : List String) then
    Except.ok (PyVal.bool false)
  else if pyLower val ∈ (["true", "t", "yes", "y"] : List String) then
    Except.ok (PyVal.bool true)
  else if pyLower val ∈ (["null", "none", "nil"] : List String) then
    Except.ok PyVal.none
  else if val.length > 0 then Except.ok (PyVal.str val)
  else Except.ok PyVal.none

/-- Does the token contain an `=` character? -/
def containsEq (arg : String) : Bool := arg.toList.contains '='

/-- `arg.split('=', 1)` when it yields two pieces: the part before the
first `=` and everything after it.  `none` models the `ValueError` of
unpacking a one-element split. -/
def splitEq1 (arg : String) : Option (String × String) :=
  match arg.toList.dropWhile (fun c => c ≠ '=') with
  | [] => Option.none
  | _ :: rest => some (String.mk (arg.toList.takeWhile (fun c => c ≠ '=')), String.mk rest)

/-- The loop of `parse_argv`: positional arguments until the first token
containing `=`, keyword arguments from then on (`args_done` latches). -/
def parseLoop (argv : List String) (args : List PyVal) (kwargs : Dict PyVal)
    (argsDone : Bool) : Except String (List PyVal × Dict PyVal) :=
  match argv with
  | [] => Except.ok (args, kwargs)
  | arg :: rest =>
    if !argsDone && !containsEq arg then
      match typecast arg with
      | Except.ok v => parseLoop rest (args ++ [v]) kwargs argsDone
      | Except.error e => Except.error e
    else
      match splitEq1 arg with
      | Option.none => Except.error "ValueError: not enough values to unpack"
      | some kv =>
        match typecast kv.2 with
        | Except.ok tv => parseLoop rest args (dictInsert kwargs kv.1 tv) true
        | Except.error e => Except.error e

/-- `parse_argv(argv)`. -/
def parse_argv (argv : List String) : Except String (List PyVal × Dict PyVal) :=
  parseLoop argv [] [] false

/-- The order in which Python's stable `sorted(range(len(a)), key=a.__getitem__,
reverse=reverse)` lists two indices: strictly better value first (larger when
`reverse`, i.e. descending; smaller otherwise), equal values in original index
order — exactly the stability guarantee of `sorted`. -/
def rankRel (a : List ℚ) (reverse : Bool) (i j : ℕ) : Prop :=
  (if reverse then a.getD j 0 < a.getD i 0 else a.getD i 0 < a.getD j 0) ∨
    (a.getD i 0 = a.getD j 0 ∧ i ≤ j)

instance rankRelDec (a : List ℚ) (reverse : Bool) : DecidableRel (rankRel a reverse) := by
  intro i j
  unfold rankRel
  exact inferInstance

instance rankRelTotal (a : List ℚ) (reverse : Bool) : IsTotal ℕ (rankRel a reverse) := by
  constructor
  intro i j
  unfold rankRel
  generalize a.getD i 0 = x
  generalize a.getD j 0 = y
  cases reverse <;> simp only [Bool.false_eq_true, if_false, if_true] <;>
    rcases lt_trichotomy x y with h | h | h <;>
    rcases Nat.le_total i j with hij | hij <;> tauto

instance rankRelTrans (a : List ℚ) (reverse : Bool) : IsTrans ℕ (rankRel a reverse) := by
  constructor
  intro i j k
  unfold rankRel
  generalize a.getD i 0 = x
  generalize a.getD j 0 = y
  generalize a.getD k 0 = z
  cases reverse <;> simp only [Bool.false_eq_true, if_false, if_true] <;>
  · rintro (h₁ | ⟨e₁, l₁⟩) (h₂ | ⟨e₂, l₂⟩)
    · exact Or.inl (by linarith)
    · exact Or.inl (by linarith)
    · exact Or.inl (by linarith)
    · exact Or.inr ⟨by linarith, le_trans l₁ l₂⟩

/-- `rank_simple(a)` from the source: the index permutation produced by the
stable sort; stability is encoded by the index tie-break in `rankRel`. -/
def rank_simple (a : List ℚ) (reverse : Bool) : List ℕ :=
  List.insertionSort (rankRel a reverse) (List.range a.length)

/-- `svec` from the source: the values listed in sorted order. -/
def rank_svec (a : List ℚ) (reverse : Bool) : List ℚ :=
  (rank_simple a reverse).map (fun i => a.getD i 0)

/-- State of the `rankdata` accumulation loop. -/
structure RankState where
  sumranks : ℕ
  dupcount : ℕ
  minrank : ℕ
  newarray : List ℚ
deriving DecidableEq

/-- The loop guard `i == n - 1 or svec[i] != svec[i + 1]`: position `i`
closes a group of equal values. -/
def runBreak (svec : List ℚ) (n i : ℕ) : Prop :=
  i = n - 1 ∨ svec.getD i 0 ≠ svec.getD (i + 1) 0

instance runBreakDec (svec : List ℚ) (n i : ℕ) : Decidable (runBreak svec n i) := by
  unfold runBreak
  exact inferInstance

/-- `for j in range(i - dupcount + 1, i + 1): newarray[ivec[j]] = value`.
(The loop maintains `dupcount ≤ i + 1`, so the ℕ subtraction agrees with
Python's.) -/
def writeRange (ivec : List ℕ) (value : ℚ) (lo len : ℕ) (arr : List ℚ) : List ℚ :=
  (List.range' lo len).foldl (fun acc j => acc.set (ivec.getD j 0) value) arr

/-- One iteration of the `rankdata` loop body: `sumranks += i; dupcount +=
1; minrank = minrank or i + 1`, and at a group break write the group's
rank into `newarray` at the original indices and reset the accumulators. -/
def rankStep (svec : List ℚ) (ivec : List ℕ) (useMin : Bool) (n : ℕ)
    (st : RankState) (i : ℕ) : RankState :=
  if runBreak svec n i then
    ⟨0, 0, 0,
      writeRange ivec
        (if useMin then ((if st.minrank = 0 then i + 1 else st.minrank : ℕ) : ℚ)
         else ((st.sumranks + i : ℕ) : ℚ) / ((st.dupcount + 1 : ℕ) : ℚ) + 1)
        (i + 1 - (st.dupcount + 1)) (st.dupcount + 1) st.newarray⟩
  else
    ⟨st.sumranks + i, st.dupcount + 1,
      if st.minrank = 0 then i + 1 else st.minrank, st.newarray⟩

/-- `rankdata(a, method, reverse)` from the source. -/
def rankdata (a : List ℚ) (method : String) (reverse : Bool) : List ℚ :=
  ((List.range a.length).foldl
      (rankStep (rank_svec a reverse) (rank_simple a reverse) (method == "min") a.length)
      ⟨0, 0, 0, List.replicate a.length 0⟩).newarray

/-- A parsed YAML config document: profile → section → parameter → value.
`yaml.safe_load` results that are not such a mapping (unreadable file, parse
error) are represented by `none` at the `fs` oracle below; the empty mapping
is the falsy document the source rejects. -/
abbrev Doc := Dict (Dict (Dict PyVal))

/-- The aggregated `profile_data` attribute. -/
abbrev ProfData := Dict (Dict (Dict PyVal))

instance profDataDecEq : DecidableEq (Dict (Dict (Dict PyVal))) := fun a b =>
  instDecidableEqList a b

/-- The `Config` object state: directory option, loaded path list, profile
data. -/
structure Config where
  config_dir : Option String
  filepaths : List String
  profile_data : ProfData
deriving DecidableEq

/-- `if key not in d: d[key] = v₀` — the ensure-exists idiom of the merge
loop. -/
def ensureKey {α : Type} (d : Dict α) (k : String) (v₀ : α) : Dict α :=
  if dictHas d k then d else dictInsert d k v₀

/-- Inner body of the merge loop of `Config.load` for one section of one
profile: ensure the section exists under the profile, then
`self.profile_data[profile][section].update(cfg[profile][section])`. -/
def mergeSection (pd : ProfData) (prof : String) (sEntry : String × Dict PyVal) :
    ProfData :=
  dictInsert pd prof
    (dictInsert (ensureKey (dictGetD pd prof []) sEntry.1 []) sEntry.1
      (dictUpdate (dictGetD (ensureKey (dictGetD pd prof []) sEntry.1 []) sEntry.1 [])
        sEntry.2))

/-- Outer body of the merge loop of `Config.load` for one profile of the
parsed document: ensure the profile exists, then merge each of its
sections in document order. -/
def mergeProfile (pd : ProfData) (pEntry : String × Dict (Dict PyVal)) : ProfData :=
  pEntry.2.foldl (fun acc s => mergeSection acc pEntry.1 s) (ensureKey pd pEntry.1 [])

/-- The whole merge phase of `Config.load`: fold every profile of the
parsed document into `profile_data`. -/
def mergeDoc (pd : ProfData) (cfg : Doc) : ProfData :=
  cfg.foldl mergeProfile pd

/-- `os.path.join(self.config_dir, file) if self.config_dir else
os.path.realpath(file)`.  `realpath` (canonicalization against the process
working directory) is environment-dependent, so it is a parameter
`resolve`; every claim holds for an arbitrary deterministic `resolve`. -/
def resolvedPath (resolve : String → String) (cd : Option String) (file : String) :
    String :=
  match cd with
  | some d => d ++ "/" ++ file
  | Option.none => resolve file

/-- `Config.load(file)`.  `fs` is the file system joined with the YAML
parser: `none` means the open or parse raises.  The returned state is the
object state when the call finishes or raises: every raise in the source
happens before any mutation, which the translation makes explicit by
returning the incoming state on both error paths. -/
def Config.load (fs : String → Option Doc) (resolve : String → String)
    (st : Config) (file : String) : Config × Except String Bool :=
  let path := resolvedPath resolve st.config_dir file
  if path ∈ st.filepaths then (st, Except.ok false)
  else
    match fs path with
    | Option.none => (st, Except.error ("could not open or parse " ++ file))
    | some cfg =>
      if cfg.isEmpty then (st, Except.error ("Could not load from " ++ file))
      else
        (⟨st.config_dir, st.filepaths ++ [path], mergeDoc st.profile_data cfg⟩,
          Except.ok true)

/-- The `files` constructor argument: a comma-separated string, an
iterable of names, or any other (non-string, non-iterable) value. -/
inductive FilesArg where
  | str (s : String)
  | iter (l : List String)
  | notIterable

/-- `s.split(',')` (structurally recursive model of `str.split` on a
single-character separator; note `"".split(',') == [""]`). -/
def splitCommaAux : List Char → List Char → List String
  | [], acc => [String.mk acc.reverse]
  | c :: rest, acc =>
    if c = ',' then String.mk acc.reverse :: splitCommaAux rest []
    else splitCommaAux rest (c :: acc)

/-- `s.split(',')`. -/
def pySplitComma (s : String) : List String := splitCommaAux s.toList []

/-- A fresh `Config` object before any file is loaded. -/
def initState (cd : Option String) : Config := ⟨cd, [], []⟩

/-- The constructor loop: load every file in order, aborting on the first
failure (the `load` return value is ignored). -/
def loadAll (fs : String → Option Doc) (resolve : String → String)
    (cd : Option String) (files : List String) : Except String Config :=
  files.foldlM
    (fun st file =>
      match Config.load fs resolve st file with
      | (st2, Except.ok _) => Except.ok st2
      | (_, Except.error e) => Except.error e)
    (initState cd)

/-- `Config.__init__(files, config_dir)`. -/
def Config.init (fs : String → Option Doc) (resolve : String → String)
    (files : FilesArg) (cd : Option String) : Except String Config :=
  match files with
  | FilesArg.str s => loadAll fs resolve cd (pySplitComma s)
  | FilesArg.iter l => loadAll fs resolve cd l
  | FilesArg.notIterable => Except.error "Bad argument, files not iterable"

/-- `Config.config(section, profile)`.  Returns the possibly mutated state
together with the returned mapping.  Python's `ret_params =
default_data.get(section, {})` aliases the stored default-profile section
when present, so the in-place `ret_params.update(profile_params)` then
also rewrites `profile_data['default'][section]`; the translation makes
that aliasing explicit.  A falsy `profile` argument (`None` or `""`) skips
the overlay. -/
def Config.config (st : Config) (sect : String) (profile : Option String) :
    Except String (Config × Dict PyVal) :=
  if ¬ dictHas st.profile_data "default" then
    Except.error "Default profile never loaded"
  else
    let default_data := dictGetD st.profile_data "default" []
    let ret_params := dictGetD default_data sect []
    match profile with
    | Option.none => Except.ok (st, ret_params)
    | some p =>
      if p = "" then Except.ok (st, ret_params)
      else if ¬ dictHas st.profile_data p then
        Except.error ("Profile " ++ p ++ " never loaded")
      else
        let profile_params := dictGetD (dictGetD st.profile_data p []) sect []
        let merged := dictUpdate ret_params profile_params
        let new_pd :=
          if dictHas default_data sect then
            dictInsert st.profile_data "default" (dictInsert default_data sect merged)
          else st.profile_data
        Except.ok (⟨st.config_dir, st.filepaths, new_pd⟩, merged)

/-- A placeholder character: `[\p{Lu}\d_]` of the source regex (uppercase
letter, digit, underscore; ASCII fragment). -/
def tokenChar (c : Char) : Bool :=
  c.isUpper || c.isDigit || c = '_'

/-- `re.findall(r'(\<[\p{Lu}\d_]+\>)', fmt)`: scan left to right for
`<BODY>` placeholders with a non-empty body of `tokenChar`s.  Maximal
munch agrees with the regex because `>` is not a body character, and
restarting the scan right after the opening `<` (rather than after the
whole match) is equivalent to the regex's non-overlapping scan because a
matched span `BODY>` contains no further `<`. -/
def findTokensAux : List Char → List String
  | [] => []
  | c :: rest =>
    if c = '<' ∧ rest.takeWhile tokenChar ≠ [] ∧
        (rest.dropWhile tokenChar).head? = some '>' then
      String.mk ('<' :: rest.takeWhile tokenChar ++ ['>']) :: findTokensAux rest
    else findTokensAux rest

/-- The token list of `replace_tokens`. -/
def pyFindTokens (fmt : String) : List String := findTokensAux fmt.toList

/-- `text.replace(pat, rep)` over character lists: replace every
non-overlapping occurrence left to right (the one call site always passes
a non-empty `pat`). -/
def replaceChars (pat rep : List Char) : List Char → List Char
  | [] => []
  | c :: rest =>
    if pat ≠ [] ∧ pat.isPrefixOf (c :: rest) then
      rep ++ replaceChars pat rep ((c :: rest).drop pat.length)
    else c :: replaceChars pat rep rest
termination_by l => l.length
decreasing_by
  · rename_i h
    simp only [List.length_cons, List.length_drop]
    have : pat.length ≠ 0 := by
      intro h0
      exact h.1 (List.eq_nil_of_length_eq_zero h0)
    omega
  · simp

/-- `s.replace(pat, rep)` for strings. -/
def pyReplace (s pat rep : String) : String :=
  String.mk (replaceChars pat.toList rep.toList s.toList)

/-- `token[1:-1].lower()`: the lookup key of a placeholder. -/
def token_var (token : String) : String :=
  String.mk ((token.toList.drop 1).dropLast.map lowerChar)

/-- The per-token loop of `replace_tokens`: look the key up, raise when the
value is missing or falsy (the empty string in this string-valued model),
else replace every occurrence and continue. -/
def replaceLoop (kwargs : Dict String) : List String → String → Except String String
  | [], acc => Except.ok acc
  | token :: rest, acc =>
    match dictGet? kwargs (token_var token) with
    | some v =>
      if v = "" then Except.error ("Token " ++ token_var token ++ " not found in kwargs")
      else replaceLoop kwargs rest (pyReplace acc token v)
    | Option.none => Except.error ("Token " ++ token_var token ++ " not found in kwargs")

/-- `replace_tokens(fmt, **kwargs)` with string-valued keyword arguments. -/
def replace_tokens (fmt : String) (kwargs : Dict String) : Except String String :=
  replaceLoop kwargs (pyFindTokens fmt) fmt

/-! ### Specification-side definitions

The definitions below are written from the specification's wording (for
refinement-style claims) and from the claim statements themselves; the
theorems at the end of the file compare them with the translations of the
source above. -/

/-- Spec side of claim C7: the positional part is the longest `=`-free
prefix, coerced elementwise. -/
def coerceAll (l : List String) : Except String (List PyVal) := l.mapM typecast

/-- Spec side of claim C7: every token from the first `=`-containing one on
is split at its first `=` into a verbatim key and a coerced value. -/
def kwPairs (l : List String) : Except String (List (String × PyVal)) :=
  l.mapM (fun a =>
    match splitEq1 a with
    | Option.none => Except.error "ValueError: not enough values to unpack"
    | some kv => (typecast kv.2).map (fun tv => (kv.1, tv)))

/-- Claim C7's description of `parse_argv`: positional prefix before the
first `=` token, keyword tokens from then on, later duplicate keys
overwriting earlier ones. -/
def parseSpec (argv : List String) : Except String (List PyVal × Dict PyVal) :=
  (coerceAll (argv.takeWhile (fun a => !containsEq a))).bind (fun args =>
    (kwPairs (argv.dropWhile (fun a => !containsEq a))).map (fun kvs =>
      (args, kvs.foldl (fun d e => dictInsert d e.1 e.2) [])))

/-- Amended claim C2's coercion cascade, stated independently of the
`str.isdecimal` / `str.isnumeric` modelling: digits-only strings (no sign,
non-empty) become integers; strings that are all Unicode-numeric but not
all decimal digits make the float conversion raise; then the boolean and
null literals; then non-empty strings unchanged; the empty string becomes
None. -/
def typecastSpec (val : String) : Except String PyVal :=
  if val.length > 0 ∧ ∀ c ∈ val.toList, '0' ≤ c ∧ c ≤ '9' then
    Except.ok (PyVal.int (digitsToNat val.toList))
  else if val.length > 0 ∧ ∀ c ∈ val.toList, numericChar c then
    Except.error "ValueError: could not convert string to float"
  else if pyLower val ∈ (["false", "f", "no", "n"] : List String) then
    Except.ok (PyVal.bool false)
  else if pyLower val ∈ (["true", "t", "yes", "y"] : List String) then
    Except.ok (PyVal.bool true)
  else if pyLower val ∈ (["null", "none", "nil"] : List String) then
    Except.ok PyVal.none
  else if val = "" then Except.ok PyVal.none
  else Except.ok (PyVal.str val)

/-- Three-level lookup in aggregated profile data (also used for a parsed
document): the value of `pd[prof][sect][key]` when every level is present. -/
def cfgLookup (pd : ProfData) (prof sect key : String) : Option PyVal :=
  (dictGet? pd prof).bind (fun sections =>
    (dictGet? sections sect).bind (fun params => dictGet? params key))

/-- Keys of an association list are pairwise distinct — automatically true
of anything parsed from a YAML mapping (Python dicts cannot repeat keys). -/
def NodupKeys {α : Type} (d : Dict α) : Prop := (d.map Prod.fst).Nodup

/-- A well-formed parsed document: distinct profile names, distinct section
names per profile, distinct parameter names per section. -/
def WFDoc (cfg : Doc) : Prop :=
  NodupKeys cfg ∧ ∀ e ∈ cfg, NodupKeys e.2 ∧ ∀ s ∈ e.2, NodupKeys s.2

instance nodupKeysDec {α : Type} [DecidableEq α] (d : Dict α) : Decidable (NodupKeys d) := by
  unfold NodupKeys
  exact inferInstance

instance wfDocDec (cfg : Doc) : Decidable (WFDoc cfg) := by
  unfold WFDoc
  exact inferInstance

/-- Claim C3's description of the aggregate: the value a (profile, section,
parameter) triple has after a sequence of merges is the one from the last
document that sets it, and it is absent exactly when no document sets it. -/
def lastSet (docs : List Doc) (prof sect key : String) : Option PyVal :=
  docs.reverse.findSome? (fun d => cfgLookup d prof sect key)

/-- Claim C8's failure condition for one placeholder: its lookup key is
absent from the keyword arguments or mapped to a falsy (empty) value. -/
def tokenBad (kwargs : Dict String) (t : String) : Prop :=
  dictGet? kwargs (token_var t) = Option.none ∨ dictGet? kwargs (token_var t) = some ""

instance tokenBadDec (kwargs : Dict String) (t : String) : Decidable (tokenBad kwargs t) := by
  unfold tokenBad
  exact inferInstance

/-- Claim C8's success result: every literal occurrence of each found
placeholder replaced by its looked-up value, token by token in found
order. -/
def substAll (fmt : String) (kwargs : Dict String) : String :=
  (pyFindTokens fmt).foldl (fun s t => pyReplace s t (dictGetD kwargs (token_var t) "")) fmt

/-- A tiny file-system-plus-parser oracle used by the concrete witnesses:
two readable documents (the second overwriting one key of the first), an
unparsable path, and nothing else. -/
def demoFs : String → Option Doc := fun p =>
  if p = "/d/f1" then
    some [("default", [("scoring", [("weight", PyVal.int 1), ("other_key", PyVal.int 7)])])]
  else if p = "/d/f2" then
    some [("default", [("scoring", [("weight", PyVal.int 2)])])]
  else Option.none

/-- The store reached by the first successful witness load of `/d/f1`. -/
def demoSt1 : Config :=
  ⟨some "/d", ["/d/f1"],
    [("default", [("scoring", [("weight", PyVal.int 1), ("other_key", PyVal.int 7)])])]⟩

/-- The store of claim C1's failing input: `default.sec.a = 1`, profile
`p` overriding with `sec.a = 2`. -/
def overlayStore : Config :=
  ⟨Option.none, [],
    [("default", [("sec", [("a", PyVal.int 1)])]),
     ("p", [("sec", [("a", PyVal.int 2)])])]⟩

/-!
## Theorems
-/

/-- Accessing the second component of a successful `Config.load` pair. -/
theorem load_ok_cases (fs : String → Option Doc) (resolve : String → String)
    (st st2 : Config) (file : String)
    (h : Config.load fs resolve st file = (st2, Except.ok true)) :
    resolvedPath resolve st.config_dir file ∉ st.filepaths ∧
    ∃ cfg, fs (resolvedPath resolve st.config_dir file) = some cfg ∧ cfg.isEmpty = false ∧
      st2 = ⟨st.config_dir, st.filepaths ++ [resolvedPath resolve st.config_dir file],
        mergeDoc st.profile_data cfg⟩ := by
  unfold Config.load at h
  by_cases hmem : resolvedPath resolve st.config_dir file ∈ st.filepaths
  · simp [hmem] at h
  · cases hfs : fs (resolvedPath resolve st.config_dir file) with
    | none => simp [hmem, hfs] at h
    | some cfg =>
      by_cases hempty : cfg.isEmpty
      · simp [hmem, hfs, hempty] at h
      · simp only [hmem, hfs, hempty] at h
        refine ⟨hmem, cfg, rfl, by simpa using hempty, ?_⟩
        simp at h
        exact h.symm

/-- C4: a file name whose resolved path was already successfully loaded is
politely skipped: the second `load` returns `false` and leaves the whole
`Config` state — `profile_data` and the loaded-path list — unchanged. -/
theorem load_already_loaded_noop (fs : String → Option Doc) (resolve : String → String)
    (st st2 : Config) (file : String)
    (h : Config.load fs resolve st file = (st2, Except.ok true)) :
    Config.load fs resolve st2 file = (st2, Except.ok false) := by
  obtain ⟨hmem, cfg, hfs, hempty, hst2⟩ := load_ok_cases fs resolve st st2 file h
  subst hst2
  unfold Config.load
  simp

/-- C4 witness: loading `/d/f1` into a fresh store succeeds, and loading it
again returns `false` with the state unchanged. -/
theorem load_already_loaded_noop_witness :
    Config.load demoFs id (initState (some "/d")) "f1" = (demoSt1, Except.ok true) ∧
    Config.load demoFs id demoSt1 "f1" = (demoSt1, Except.ok false) :=
  ⟨by decide,
    load_already_loaded_noop demoFs id (initState (some "/d")) demoSt1 "f1" (by decide)⟩

/-- C5: whenever `load` fails — unreadable or unparsable file, or a
document that parses to an empty/falsy value — the store is left exactly
as it was: no path is recorded and no merge is applied. -/
theorem load_failure_frame (fs : String → Option Doc) (resolve : String → String)
    (st : Config) (file : String) (e : String)
    (h : (Config.load fs resolve st file).2 = Except.error e) :
    (Config.load fs resolve st file).1 = st := by
  unfold Config.load at *
  by_cases hmem : resolvedPath resolve st.config_dir file ∈ st.filepaths
  · simp [hmem]
  · cases hfs : fs (resolvedPath resolve st.config_dir file) with
    | none => simp [hmem, hfs]
    | some cfg =>
      by_cases hempty : cfg.isEmpty
      · simp [hmem, hfs, hempty]
      · simp [hmem, hfs, hempty] at h

/-- C5 witness: loading the unreadable path `/d/zzz` fails and leaves the
fresh store untouched. -/
theorem load_failure_frame_witness :
    (Config.load demoFs id (initState (some "/d")) "zzz").2 =
      Except.error "could not open or parse zzz" ∧
    (Config.load demoFs id (initState (some "/d")) "zzz").1 = initState (some "/d") :=
  ⟨by decide, load_failure_frame demoFs id _ "zzz" "could not open or parse zzz" (by decide)⟩

/-- C10: with the `default` profile present, passing the empty string as
the `profile` argument is falsy like `None`: no never-loaded-profile error
is raised even though no profile named `""` exists, and the call behaves
exactly like `config(section)` with no profile. -/
theorem config_empty_string_profile (st : Config) (sect : String)
    (h : dictHas st.profile_data "default" = true) :
    Config.config st sect (some "") = Config.config st sect Option.none ∧
    (Config.config st sect (some "")).isOk = true := by
  unfold Config.config
  simp [h, Except.isOk, Except.toBool]

/-- C10 witness: on a store with only the `default` profile loaded,
`config("sec", "")` succeeds and equals `config("sec")`. -/
theorem config_empty_string_profile_witness :
    dictHas overlayStore.profile_data "default" = true ∧
    Config.config overlayStore "sec" (some "") = Config.config overlayStore "sec" Option.none ∧
    (Config.config overlayStore "sec" (some "")).isOk = true :=
  ⟨by decide,
    (config_empty_string_profile overlayStore "sec" (by decide)).1,
    (config_empty_string_profile overlayStore "sec" (by decide)).2⟩

/-- C1 (code bug): evaluating the embedded `config` at the failing input.
With `default.sec.a = 1` and profile `p` having `sec.a = 2`, the call
`config("sec", "p")` rewrites the stored default-profile section to
`a = 2` (Python's `ret_params` aliases it and `update` mutates in place),
so `profile_data` is *not* left unchanged and the returned mapping is not
a fresh copy — contradicting the claim, which matches the spec's stated
intent (§9 calls this in-place update a latent bug). -/
theorem config_overlay_mutates_store :
    Config.config overlayStore "sec" (some "p") =
      Except.ok
        (⟨Option.none, [],
          [("default", [("sec", [("a", PyVal.int 2)])]),
           ("p", [("sec", [("a", PyVal.int 2)])])]⟩,
          [("a", PyVal.int 2)]) ∧
    ([("default", [("sec", [("a", PyVal.int 2)])]),
      ("p", [("sec", [("a", PyVal.int 2)])])] : ProfData) ≠ overlayStore.profile_data := by
  exact ⟨by decide, by decide⟩

/-- C2 counterexample: `"5.5"` is neither `isdecimal` nor `isnumeric` in
Python (`.` is not a numeric character), so `typecast` returns the literal
string; `parse(["n=5.5"])` therefore yields the *string* `"5.5"`, not the
float `5.5` the claim asserts; likewise a signed digit string such as
`"-5"` is not `isdecimal` and stays a string instead of becoming an
integer. -/
theorem typecast_float_claim_false :
    typecast "5.5" = Except.ok (PyVal.str "5.5") ∧
    parse_argv ["n=5.5"] = Except.ok ([], [("n", PyVal.str "5.5")]) ∧
    PyVal.str "5.5" ≠ PyVal.float (11 / 2) ∧
    typecast "-5" = Except.ok (PyVal.str "-5") :=
  ⟨by decide, by decide, by decide, by decide⟩

/-- A string has length zero exactly when it is empty. -/
theorem string_length_zero_iff (s : String) : s.length = 0 ↔ s = "" := by
  rw [String.ext_iff]
  change s.data.length = 0 ↔ s.data = "".data
  show s.data.length = 0 ↔ s.data = []
  exact List.length_eq_zero

/-- `Char.isDigit` is the ASCII range check `'0' ≤ c ≤ '9'`. -/
theorem isDigit_iff_range (c : Char) : c.isDigit = true ↔ '0' ≤ c ∧ c ≤ '9' := by
  simp [Char.isDigit, Char.le_def]

/-- A list is non-empty exactly when `isEmpty` is `false`. -/
theorem isEmpty_false_iff {α : Type} (l : List α) : l.isEmpty = false ↔ l ≠ [] := by
  cases l <;> simp

/-- The first element surviving `dropWhile` fails the predicate. -/
theorem head_dropWhile_false {α : Type} (p : α → Bool) (l t : List α) (c : α)
    (h : l.dropWhile p = c :: t) : p c = false := by
  induction l with
  | nil => simp [List.dropWhile] at h
  | cons a as ih =>
    rw [List.dropWhile_cons] at h
    by_cases hp : p a
    · exact ih (by simpa [hp] using h)
    · simp [hp] at h
      rw [← h.1]
      simpa using hp

/-- Whenever the `isnumeric` branch of `typecast` is reached (the string is
numeric but not decimal), Python's `float` conversion raises: the string
contains a non-decimal numeric character, which no float literal admits. -/
theorem float_branch_raises (val : String)
    (hd : pyIsDecimal val = false) (hn : pyIsNumeric val = true) :
    pyFloatOfString val = Option.none := by
  have hn' : val.toList ≠ [] ∧ ∀ c ∈ val.toList, numericChar c = true := by
    simpa [pyIsNumeric, List.isEmpty_iff, List.all_eq_true] using hn
  have hne : val.toList ≠ [] := hn'.1
  have hall : ∀ c ∈ val.toList, numericChar c = true := hn'.2
  have hbad : ∃ c ∈ val.toList, ¬ c.isDigit = true := by
    simp only [pyIsDecimal, Bool.and_eq_false_iff] at hd
    rcases hd with hd | hd
    · simp [List.isEmpty_iff] at hd
      exact absurd hd hne
    · simpa [decimalChar, List.all_eq_false] using hd
  obtain ⟨hc, lt, hl⟩ := List.exists_cons_of_ne_nil hne
  have hhc : numericChar hc = true := hall hc (by rw [hl]; exact List.mem_cons_self _ _)
  have hnm : val.toList.head? ≠ some '-' := by
    rw [hl]
    intro h
    simp at h
    rw [h] at hhc
    exact absurd hhc (by decide)
  have hnp : val.toList.head? ≠ some '+' := by
    rw [hl]
    intro h
    simp at h
    rw [h] at hhc
    exact absurd hhc (by decide)
  cases hdw : val.toList.dropWhile Char.isDigit with
  | nil =>
    rw [List.dropWhile_eq_nil_iff] at hdw
    obtain ⟨c, hcm, hcd⟩ := hbad
    exact absurd (hdw c hcm) hcd
  | cons d frac =>
    have hdd : d.isDigit = false := head_dropWhile_false _ _ _ _ hdw
    have hdm : d ∈ val.toList :=
      (List.dropWhile_sublist Char.isDigit).subset (by rw [hdw]; exact List.mem_cons_self _ _)
    have hdn : numericChar d = true := hall d hdm
    have hdot : d ≠ '.' := by
      simp [numericChar, hdd] at hdn
      rcases hdn with h | h <;> (rw [h]; decide)
    unfold pyFloatOfString pyFloatChars
    simp only [if_neg (show ¬ (val.toList.head? = some '-' ∨ val.toList.head? = some '+') from
      by rintro (h | h) <;> [exact hnm h; exact hnp h])]
    rw [hdw]
    simp [hdot]

/-- C2 (amended): the coercion cascade the code actually implements.  A
*non-empty, unsigned* string of decimal digits becomes an integer; a
string that is all Unicode-numeric but not all decimal digits reaches the
float conversion, which raises for every such string; then the boolean and
null literal lists; then a non-empty string is returned unchanged and the
empty string becomes None.  In particular `parse(["n=5.5"])` yields the
literal *string* `"5.5"` (`"5.5"` is neither decimal nor numeric), and a
signed string such as `"-5"` also stays a string. -/
theorem typecast_amended_cascade :
    (∀ val : String, typecast val = typecastSpec val) ∧
    parse_argv ["n=5.5"] = Except.ok ([], [("n", PyVal.str "5.5")]) ∧
    typecast "-5" = Except.ok (PyVal.str "-5") := by
  refine ⟨?_, by decide, by decide⟩
  intro val
  have hlen : val.length = val.toList.length := rfl
  have hd_iff : pyIsDecimal val = true ↔
      (val.length > 0 ∧ ∀ c ∈ val.toList, '0' ≤ c ∧ c ≤ '9') := by
    unfold pyIsDecimal decimalChar
    rw [Bool.and_eq_true, List.all_eq_true]
    constructor
    · rintro ⟨h1, h2⟩
      have h1' : val.toList ≠ [] := (isEmpty_false_iff _).mp (by simpa using h1)
      constructor
      · rw [hlen]
        exact List.length_pos.mpr h1'
      · intro c hc
        exact (isDigit_iff_range c).mp (h2 c hc)
    · rintro ⟨h1, h2⟩
      constructor
      · have h3 : val.toList ≠ [] := List.length_pos.mp (hlen ▸ h1)
        simp [(isEmpty_false_iff _).mpr h3]
        exact h3
      · intro c hc
        exact (isDigit_iff_range c).mpr (h2 c hc)
  have hn_iff : pyIsNumeric val = true ↔
      (val.length > 0 ∧ ∀ c ∈ val.toList, numericChar c = true) := by
    unfold pyIsNumeric
    rw [Bool.and_eq_true, List.all_eq_true]
    constructor
    · rintro ⟨h1, h2⟩
      have h1' : val.toList ≠ [] := (isEmpty_false_iff _).mp (by simpa using h1)
      refine ⟨?_, h2⟩
      rw [hlen]
      exact List.length_pos.mpr h1'
    · rintro ⟨h1, h2⟩
      refine ⟨?_, h2⟩
      have h3 : val.toList ≠ [] := List.length_pos.mp (hlen ▸ h1)
      simp [(isEmpty_false_iff _).mpr h3]
      exact h3
  unfold typecast typecastSpec
  by_cases h1 : pyIsDecimal val = true
  · rw [if_pos h1, if_pos (hd_iff.mp h1)]
  · have h1' : ¬ (val.length > 0 ∧ ∀ c ∈ val.toList, '0' ≤ c ∧ c ≤ '9') :=
      fun hc => h1 (hd_iff.mpr hc)
    rw [if_neg h1, if_neg h1']
    by_cases h2 : pyIsNumeric val = true
    · rw [if_pos h2, if_pos (hn_iff.mp h2),
        float_branch_raises val (Bool.not_eq_true _ ▸ h1) h2]
    · have h2' : ¬ (val.length > 0 ∧ ∀ c ∈ val.toList, numericChar c = true) :=
        fun hc => h2 (hn_iff.mpr hc)
      rw [if_neg h2, if_neg h2']
      by_cases h3 : pyLower val ∈ (["false", "f", "no", "n"] : List String)
      · rw [if_pos h3, if_pos h3]
      · rw [if_neg h3, if_neg h3]
        by_cases h4 : pyLower val ∈ (["true", "t", "yes", "y"] : List String)
        · rw [if_pos h4, if_pos h4]
        · rw [if_neg h4, if_neg h4]
          by_cases h5 : pyLower val ∈ (["null", "none", "nil"] : List String)
          · rw [if_pos h5, if_pos h5]
          · rw [if_neg h5, if_neg h5]
            by_cases h6 : val = ""
            · rw [if_neg (show ¬ val.length > 0 from by
                  rw [(string_length_zero_iff val).mpr h6]
                  omega),
                if_pos h6]
            · rw [if_pos (show val.length > 0 from by
                  have := (string_length_zero_iff val).not.mpr h6
                  omega),
                if_neg h6]

@[simp]
theorem except_map_error {ε α β : Type} (f : α → β) (e : ε) :
    Except.map f (Except.error e : Except ε α) = Except.error e := rfl

@[simp]
theorem except_map_ok {ε α β : Type} (f : α → β) (a : α) :
    Except.map f (Except.ok a : Except ε α) = Except.ok (f a) := rfl

@[simp]
theorem except_bind_error {ε α β : Type} (g : α → Except ε β) (e : ε) :
    ((Except.error e : Except ε α) >>= g) = Except.error e := rfl

@[simp]
theorem except_bind_ok {ε α β : Type} (g : α → Except ε β) (a : α) :
    ((Except.ok a : Except ε α) >>= g) = g a := rfl

@[simp]
theorem except_dot_bind_error {ε α β : Type} (g : α → Except ε β) (e : ε) :
    (Except.error e : Except ε α).bind g = Except.error e := rfl

@[simp]
theorem except_dot_bind_ok {ε α β : Type} (g : α → Except ε β) (a : α) :
    (Except.ok a : Except ε α).bind g = g a := rfl

@[simp]
theorem except_pure {ε α : Type} (a : α) : (pure a : Except ε α) = Except.ok a := rfl

@[simp]
theorem except_fmap_error {ε α β : Type} (f : α → β) (e : ε) :
    (f <$> (Except.error e : Except ε α)) = Except.error e := rfl

@[simp]
theorem except_fmap_ok {ε α β : Type} (f : α → β) (a : α) :
    (f <$> (Except.ok a : Except ε α)) = Except.ok (f a) := rfl

@[simp]
theorem except_mapM_nil {ε α β : Type} (f : α → Except ε β) :
    ([] : List α).mapM f = Except.ok [] := rfl

@[simp]
theorem except_mapM_loop_nil {ε α β : Type} (f : α → Except ε β) (acc : List β) :
    List.mapM.loop f [] acc = (pure acc.reverse : Except ε (List β)) := rfl

/-- Once `args_done` is latched, the loop folds every remaining token as a
keyword token over the accumulated state. -/
theorem parseLoop_kw_phase (argv : List String) :
    ∀ args kwargs, parseLoop argv args kwargs true =
      (kwPairs argv).map (fun kvs =>
        (args, kvs.foldl (fun d e => dictInsert d e.1 e.2) kwargs)) := by
  induction argv with
  | nil =>
    intro args kwargs
    simp [parseLoop, kwPairs, List.mapM]
  | cons a rest ih =>
    intro args kwargs
    rw [parseLoop]
    simp only [Bool.not_true, Bool.false_and, Bool.false_eq_true, if_false]
    unfold kwPairs
    rw [List.mapM_cons]
    cases hsp : splitEq1 a with
    | none =>
      dsimp only
      simp
    | some kv =>
      dsimp only
      cases htc : typecast kv.2 with
      | error e => simp
      | ok tv =>
        simp only [except_map_ok, except_bind_ok]
        rw [ih]
        unfold kwPairs
        cases hkp : rest.mapM (fun a =>
            match splitEq1 a with
            | Option.none =>
              (Except.error "ValueError: not enough values to unpack" :
                Except String (String × PyVal))
            | some kv => (typecast kv.2).map (fun tv => (kv.1, tv))) with
        | error e => simp
        | ok kvs => simp

/-- Before `args_done` is latched, the loop coerces the `=`-free prefix as
positional arguments and treats the rest as keyword tokens. -/
theorem parseLoop_pos_phase (argv : List String) :
    ∀ args kwargs, parseLoop argv args kwargs false =
      (coerceAll (argv.takeWhile (fun a => !containsEq a))).bind (fun newargs =>
        (kwPairs (argv.dropWhile (fun a => !containsEq a))).map (fun kvs =>
          (args ++ newargs, kvs.foldl (fun d e => dictInsert d e.1 e.2) kwargs))) := by
  induction argv with
  | nil =>
    intro args kwargs
    simp [parseLoop, coerceAll, kwPairs, List.mapM]
  | cons a rest ih =>
    intro args kwargs
    rw [parseLoop]
    cases hce : containsEq a with
    | false =>
      simp only [List.takeWhile_cons, List.dropWhile_cons, hce, Bool.not_false,
        Bool.not_true, Bool.true_and, if_true]
      unfold coerceAll
      rw [List.mapM_cons]
      cases htc : typecast a with
      | error e => simp
      | ok v =>
        simp only [except_map_ok, except_bind_ok]
        rw [ih]
        unfold coerceAll
        cases hca : (rest.takeWhile (fun a => !containsEq a)).mapM typecast with
        | error e => simp
        | ok newargs =>
          cases hkp : kwPairs (rest.dropWhile (fun a => !containsEq a)) with
          | error e => simp
          | ok kvs => simp
    | true =>
      simp only [List.takeWhile_cons, List.dropWhile_cons, hce, Bool.not_true,
        Bool.and_false, Bool.false_eq_true, if_false]
      unfold coerceAll
      rw [show (([] : List String).mapM typecast) = (Except.ok [] : Except String (List PyVal))
        from rfl]
      rw [except_dot_bind_ok]
      unfold kwPairs
      rw [List.mapM_cons]
      cases hsp : splitEq1 a with
      | none =>
        dsimp only
        simp
      | some kv =>
        dsimp only
        cases htc : typecast kv.2 with
        | error e => simp
        | ok tv =>
          simp only [except_map_ok, except_bind_ok]
          rw [parseLoop_kw_phase]
          unfold kwPairs
          cases hkp : rest.mapM (fun a =>
              match splitEq1 a with
              | Option.none =>
                (Except.error "ValueError: not enough values to unpack" :
                  Except String (String × PyVal))
              | some kv => (typecast kv.2).map (fun tv => (kv.1, tv))) with
          | error e => simp
          | ok kvs => simp

/-- C7: `parse_argv` realises the spec's description: every token before
the first `=`-containing token is coerced and appended to the positional
list; from the first `=` token onward every token is split at its first
`=` into a verbatim key and a coerced value, later duplicates overwriting
earlier ones, and keyword mode never reverts.  In particular
`parse(["a","b","x=1","y=true","z="])` yields positional `["a","b"]` and
keywords `{x: 1, y: True, z: None}`. -/
theorem parse_argv_matches_spec :
    (∀ argv : List String, parse_argv argv = parseSpec argv) ∧
    parse_argv ["a", "b", "x=1", "y=true", "z="] =
      Except.ok ([PyVal.str "a", PyVal.str "b"],
        [("x", PyVal.int 1), ("y", PyVal.bool true), ("z", PyVal.none)]) := by
  refine ⟨?_, by decide⟩
  intro argv
  unfold parse_argv parseSpec
  rw [parseLoop_pos_phase]
  cases hca : coerceAll (argv.takeWhile (fun a => !containsEq a)) with
  | error e => simp
  | ok newargs =>
    cases hkp : kwPairs (argv.dropWhile (fun a => !containsEq a)) with
    | error e => simp
    | ok kvs => simp

/-- The token loop of `replace_tokens` raises exactly when some token in
its list is bad, and otherwise folds the replacements over the
accumulator. -/
theorem replaceLoop_spec (kwargs : Dict String) (tokens : List String) :
    ∀ acc,
      (((replaceLoop kwargs tokens acc).isOk = false) ↔ ∃ t ∈ tokens, tokenBad kwargs t) ∧
      ((∀ t ∈ tokens, ¬ tokenBad kwargs t) →
        replaceLoop kwargs tokens acc =
          Except.ok (tokens.foldl
            (fun s t => pyReplace s t (dictGetD kwargs (token_var t) "")) acc)) := by
  induction tokens with
  | nil =>
    intro acc
    simp [replaceLoop, Except.isOk, Except.toBool]
  | cons t rest ih =>
    intro acc
    rw [replaceLoop]
    cases hv : dictGet? kwargs (token_var t) with
    | none =>
      dsimp only
      constructor
      · simp only [Except.isOk, Except.toBool]
        constructor
        · intro _
          exact ⟨t, List.mem_cons_self _ _, Or.inl hv⟩
        · intro _
          trivial
      · intro hgood
        exact absurd (Or.inl hv) (hgood t (List.mem_cons_self _ _))
    | some v =>
      dsimp only
      by_cases hemp : v = ""
      · rw [if_pos hemp]
        constructor
        · simp only [Except.isOk, Except.toBool]
          constructor
          · intro _
            exact ⟨t, List.mem_cons_self _ _, Or.inr (hemp ▸ hv)⟩
          · intro _
            trivial
        · intro hgood
          exact absurd (Or.inr (hemp ▸ hv)) (hgood t (List.mem_cons_self _ _))
      · rw [if_neg hemp]
        have hnotbad : ¬ tokenBad kwargs t := by
          intro hb
          rcases hb with hb | hb
          · rw [hv] at hb
            exact Option.noConfusion hb
          · rw [hv] at hb
            exact hemp (Option.some.injEq _ _ ▸ hb)
        constructor
        · rw [(ih (pyReplace acc t v)).1]
          constructor
          · rintro ⟨u, hu, hub⟩
            exact ⟨u, List.mem_cons_of_mem _ hu, hub⟩
          · rintro ⟨u, hu, hub⟩
            rcases List.mem_cons.mp hu with rfl | hu
            · exact absurd hub hnotbad
            · exact ⟨u, hu, hub⟩
        · intro hgood
          rw [(ih (pyReplace acc t v)).2 (fun u hu => hgood u (List.mem_cons_of_mem _ hu))]
          rw [List.foldl_cons]
          have : dictGetD kwargs (token_var t) "" = v := by
            unfold dictGetD
            rw [hv]
            rfl
          rw [this]

/-- C8: `replace_tokens` fails iff some placeholder found in the template
(a `<...>` span of uppercase letters, digits and underscores) has a lookup
key — delimiters stripped, lowercased — that is absent from the keyword
values or mapped to a falsy (empty) value; otherwise it returns the
template with every literal occurrence of each placeholder replaced by its
looked-up value, token by token in found order. -/
theorem replace_tokens_error_iff :
    ∀ (fmt : String) (kwargs : Dict String),
      (((replace_tokens fmt kwargs).isOk = false) ↔
        ∃ t ∈ pyFindTokens fmt, tokenBad kwargs t) ∧
      ((∀ t ∈ pyFindTokens fmt, ¬ tokenBad kwargs t) →
        replace_tokens fmt kwargs = Except.ok (substAll fmt kwargs)) := by
  intro fmt kwargs
  unfold replace_tokens substAll
  exact replaceLoop_spec kwargs (pyFindTokens fmt) fmt

/-- C8 witness: on `"Winner: <TEAM_NAME>"` with `team_name = "Lions"`, no
placeholder is bad, the call does not fail, and it returns the fully
substituted string. -/
theorem replace_tokens_error_iff_witness :
    (∀ t ∈ pyFindTokens "Winner: <TEAM_NAME>",
        ¬ tokenBad [("team_name", "Lions")] t) ∧
    replace_tokens "Winner: <TEAM_NAME>" [("team_name", "Lions")] =
      Except.ok (substAll "Winner: <TEAM_NAME>" [("team_name", "Lions")]) :=
  ⟨by decide,
    (replace_tokens_error_iff "Winner: <TEAM_NAME>" [("team_name", "Lions")]).2 (by decide)⟩

/-- `Option.or` with a `some` on the left. -/
theorem option_some_or {α : Type} (a : α) (b : Option α) : (some a).or b = some a := rfl

/-- `Option.or` with `none` on the left. -/
theorem option_none_or {α : Type} (b : Option α) : (Option.none : Option α).or b = b := by
  cases b <;> rfl

/-- `Option.bind` with a `some` scrutinee. -/
theorem option_some_bind {α β : Type} (a : α) (f : α → Option β) :
    (some a).bind f = f a := rfl

/-- `Option.bind` with a `none` scrutinee. -/
theorem option_none_bind {α β : Type} (f : α → Option β) :
    (Option.none : Option α).bind f = Option.none := rfl

/-- Splitting the membership test over a cons cell. -/
theorem dictHas_cons {α : Type} (e : String × α) (d : Dict α) (k : String) :
    dictHas (e :: d) k = ((e.1 == k) || dictHas d k) := by
  simp [dictHas]

/-- Membership test and lookup agree on Python dicts. -/
theorem dictHas_eq_isSome {α : Type} (d : Dict α) (k : String) :
    dictHas d k = (dictGet? d k).isSome := by
  induction d with
  | nil => rfl
  | cons e d' ih =>
    rw [dictHas_cons]
    unfold dictGet? at *
    cases he : (e.1 == k) with
    | true => simp [List.find?_cons_of_pos, he]
    | false => simpa [List.find?_cons_of_neg, he] using ih

/-- Lookup at a cons cell whose head matches. -/
theorem dictGet?_cons_self {α : Type} (e : String × α) (d : Dict α) (k : String)
    (h : e.1 = k) : dictGet? (e :: d) k = some e.2 := by
  unfold dictGet?
  rw [List.find?_cons_of_pos _ (by simpa using h)]
  rfl

/-- Lookup at a cons cell whose head does not match. -/
theorem dictGet?_cons_ne {α : Type} (e : String × α) (d : Dict α) (k : String)
    (h : e.1 ≠ k) : dictGet? (e :: d) k = dictGet? d k := by
  unfold dictGet?
  rw [List.find?_cons_of_neg _ (by simpa using h)]

/-- A key outside the key list is never found. -/
theorem dictGet?_eq_none_of_not_mem {α : Type} (d : Dict α) (k : String)
    (h : k ∉ d.map Prod.fst) : dictGet? d k = Option.none := by
  unfold dictGet?
  have hfind : List.find? (fun e => e.1 == k) d = Option.none := by
    rw [List.find?_eq_none]
    intro e he hbeq
    exact h (List.mem_map.mpr ⟨e, he, by simpa using hbeq⟩)
  rw [hfind]
  rfl

/-- In-place overwrite (the `dictHas` branch of `dictInsert`) finds the
new value at the written key. -/
theorem dictGet?_map_replace_self {α : Type} (k : String) (v : α) :
    ∀ d : Dict α, dictHas d k = true →
      dictGet? (d.map (fun e => if e.1 == k then (k, v) else e)) k = some v := by
  intro d
  induction d with
  | nil => intro h; simp [dictHas] at h
  | cons e d' ih =>
    intro h
    rw [List.map_cons]
    by_cases he : e.1 = k
    · rw [if_pos (by simpa using he)]
      exact dictGet?_cons_self _ _ _ rfl
    · rw [if_neg (by simpa using he)]
      rw [dictGet?_cons_ne _ _ _ he]
      rw [dictHas_cons] at h
      apply ih
      simpa [he] using h

/-- In-place overwrite leaves every other key's lookup unchanged. -/
theorem dictGet?_map_replace_ne {α : Type} (k k' : String) (v : α) (hne : k' ≠ k) :
    ∀ d : Dict α,
      dictGet? (d.map (fun e => if e.1 == k then (k, v) else e)) k' = dictGet? d k' := by
  intro d
  induction d with
  | nil => rfl
  | cons e d' ih =>
    rw [List.map_cons]
    by_cases he : e.1 = k
    · rw [if_pos (by simpa using he)]
      rw [dictGet?_cons_ne (k, v) _ k' (Ne.symm hne),
        dictGet?_cons_ne e d' k' (by rw [he]; exact Ne.symm hne)]
      exact ih
    · rw [if_neg (by simpa using he)]
      by_cases he' : e.1 = k'
      · rw [dictGet?_cons_self _ _ _ he', dictGet?_cons_self _ _ _ he']
      · rw [dictGet?_cons_ne _ _ _ he', dictGet?_cons_ne _ _ _ he']
        exact ih

/-- Appending a fresh binding (the other `dictInsert` branch) finds it. -/
theorem dictGet?_append_single_self {α : Type} (k : String) (v : α) :
    ∀ d : Dict α, dictHas d k = false →
      dictGet? (d ++ [(k, v)]) k = some v := by
  intro d
  induction d with
  | nil => intro _; exact dictGet?_cons_self _ _ _ rfl
  | cons e d' ih =>
    intro h
    rw [dictHas_cons, Bool.or_eq_false_iff] at h
    rw [List.cons_append, dictGet?_cons_ne _ _ _ (by simpa using h.1)]
    exact ih h.2

/-- Appending a fresh binding leaves other keys' lookups unchanged. -/
theorem dictGet?_append_single_ne {α : Type} (k k' : String) (v : α) (hne : k' ≠ k) :
    ∀ d : Dict α, dictGet? (d ++ [(k, v)]) k' = dictGet? d k' := by
  intro d
  induction d with
  | nil =>
    rw [List.nil_append, dictGet?_cons_ne _ _ _ (Ne.symm hne)]
  | cons e d' ih =>
    by_cases he : e.1 = k'
    · rw [List.cons_append, dictGet?_cons_self _ _ _ he, dictGet?_cons_self _ _ _ he]
    · rw [List.cons_append, dictGet?_cons_ne _ _ _ he, dictGet?_cons_ne _ _ _ he]
      exact ih

/-- Looking up the freshly written key finds the new value. -/
theorem dictGet?_insert_self {α : Type} (d : Dict α) (k : String) (v : α) :
    dictGet? (dictInsert d k v) k = some v := by
  unfold dictInsert
  by_cases hhas : dictHas d k = true
  · rw [if_pos hhas]
    exact dictGet?_map_replace_self k v d hhas
  · rw [if_neg hhas]
    exact dictGet?_append_single_self k v d (by simpa using hhas)

/-- Writing one key leaves every other key's lookup unchanged. -/
theorem dictGet?_insert_ne {α : Type} (d : Dict α) (k k' : String) (v : α)
    (hne : k' ≠ k) :
    dictGet? (dictInsert d k v) k' = dictGet? d k' := by
  unfold dictInsert
  by_cases hhas : dictHas d k = true
  · rw [if_pos hhas]
    exact dictGet?_map_replace_ne k k' v hne d
  · rw [if_neg hhas]
    exact dictGet?_append_single_ne k k' v hne d

/-- `dict.update` looks the source up first and falls back to the target,
provided the source has no duplicate keys (true of parsed YAML mappings). -/
theorem dictGet?_update {α : Type} (src : Dict α) :
    ∀ (d : Dict α) (k : String), NodupKeys src →
      dictGet? (dictUpdate d src) k = (dictGet? src k).or (dictGet? d k) := by
  induction src with
  | nil =>
    intro d k _
    rw [show dictUpdate d ([] : Dict α) = d from rfl,
      show dictGet? ([] : Dict α) k = Option.none from rfl, option_none_or]
  | cons e src' ih =>
    intro d k hnd
    have h2 : e.1 ∉ src'.map Prod.fst ∧ NodupKeys src' := by
      have h := hnd
      unfold NodupKeys at h
      rw [List.map_cons, List.nodup_cons] at h
      exact h
    rw [show dictUpdate d (e :: src') = dictUpdate (dictInsert d e.1 e.2) src' from rfl]
    rw [ih (dictInsert d e.1 e.2) k h2.2]
    by_cases hk : k = e.1
    · subst hk
      rw [dictGet?_eq_none_of_not_mem src' e.1 h2.1, dictGet?_insert_self,
        dictGet?_cons_self e src' e.1 rfl, option_none_or, option_some_or]
    · rw [dictGet?_insert_ne d e.1 k e.2 hk, dictGet?_cons_ne e src' k (fun h => hk h.symm)]

/-- `dictGetD` through `dictGet?`. -/
theorem dictGetD_eq {α : Type} (d : Dict α) (k : String) (v₀ : α) :
    dictGetD d k v₀ = (dictGet? d k).getD v₀ := rfl

/-- Ensuring a key and reading it back yields the stored value or the
fresh default. -/
theorem dictGetD_ensure_self (m : Dict (Dict PyVal)) (s : String) :
    dictGetD (ensureKey m s []) s [] = dictGetD m s [] := by
  unfold ensureKey
  by_cases hh : dictHas m s = true
  · rw [if_pos hh]
  · rw [if_neg hh, dictGetD_eq, dictGet?_insert_self, dictGetD_eq]
    have : dictGet? m s = Option.none := by
      cases hg : dictGet? m s with
      | none => rfl
      | some x =>
        rw [dictHas_eq_isSome, hg] at hh
        exact absurd rfl hh
    rw [this]
    rfl

/-- Ensuring one key does not change any other key's lookup. -/
theorem dictGet?_ensure_ne {α : Type} (m : Dict α) (s s' : String) (v₀ : α)
    (h : s' ≠ s) : dictGet? (ensureKey m s v₀) s' = dictGet? m s' := by
  unfold ensureKey
  by_cases hh : dictHas m s = true
  · rw [if_pos hh]
  · rw [if_neg hh]
    exact dictGet?_insert_ne m s s' v₀ h

/-- Ensuring a key does not change three-level lookups at all (the fresh
value is the empty mapping). -/
theorem cfgLookup_ensure (pd : ProfData) (prof p s k : String) :
    cfgLookup (ensureKey pd prof []) p s k = cfgLookup pd p s k := by
  unfold cfgLookup
  by_cases hp : p = prof
  · subst hp
    unfold ensureKey
    by_cases hh : dictHas pd p = true
    · rw [if_pos hh]
    · rw [if_neg hh, dictGet?_insert_self, option_some_bind]
      have : dictGet? pd p = Option.none := by
        cases hg : dictGet? pd p with
        | none => rfl
        | some x =>
          rw [dictHas_eq_isSome, hg] at hh
          exact absurd rfl hh
      rw [this, show dictGet? ([] : Dict (Dict PyVal)) s = Option.none from rfl,
        option_none_bind, option_none_bind]
  · rw [dictGet?_ensure_ne pd prof p [] hp]

/-- One section merge changes exactly the (profile, section) pair it
touches, where incoming parameters win key by key. -/
theorem cfgLookup_mergeSection (pd : ProfData) (prof : String)
    (sEntry : String × Dict PyVal) (p s k : String)
    (hnd : NodupKeys sEntry.2) :
    cfgLookup (mergeSection pd prof sEntry) p s k =
      if p = prof ∧ s = sEntry.1 then
        (dictGet? sEntry.2 k).or (cfgLookup pd p s k)
      else cfgLookup pd p s k := by
  unfold mergeSection cfgLookup
  by_cases hp : p = prof
  · subst hp
    rw [dictGet?_insert_self, option_some_bind]
    by_cases hs : s = sEntry.1
    · subst hs
      rw [if_pos ⟨rfl, rfl⟩, dictGet?_insert_self, option_some_bind,
        dictGet?_update sEntry.2 _ k hnd, dictGetD_ensure_self]
      congr 1
      cases hpm : dictGet? pd p with
      | none =>
        have hx : dictGetD pd p ([] : Dict (Dict PyVal)) = [] := by
          rw [dictGetD_eq, hpm]
          rfl
        rw [option_none_bind, hx]
        rfl
      | some sections =>
        have hx : dictGetD pd p ([] : Dict (Dict PyVal)) = sections := by
          rw [dictGetD_eq, hpm]
          rfl
        rw [option_some_bind, hx]
        cases hsm : dictGet? sections sEntry.1 with
        | none =>
          have hy : dictGetD sections sEntry.1 ([] : Dict PyVal) = [] := by
            rw [dictGetD_eq, hsm]
            rfl
          rw [option_none_bind, hy]
          rfl
        | some params =>
          have hy : dictGetD sections sEntry.1 ([] : Dict PyVal) = params := by
            rw [dictGetD_eq, hsm]
            rfl
          rw [option_some_bind, hy]
    · rw [if_neg (fun hc => hs hc.2),
        dictGet?_insert_ne _ sEntry.1 s _ hs, dictGet?_ensure_ne _ sEntry.1 s [] hs]
      cases hpm : dictGet? pd p with
      | none =>
        have hx : dictGetD pd p ([] : Dict (Dict PyVal)) = [] := by
          rw [dictGetD_eq, hpm]
          rfl
        rw [option_none_bind, hx]
        rfl
      | some sections =>
        have hx : dictGetD pd p ([] : Dict (Dict PyVal)) = sections := by
          rw [dictGetD_eq, hpm]
          rfl
        rw [option_some_bind, hx]
  · rw [if_neg (fun hc => hp hc.1), dictGet?_insert_ne _ prof p _ hp]

/-- Folding all sections of one profile into the store. -/
theorem cfgLookup_mergeSections (prof : String) (sections : Dict (Dict PyVal)) :
    ∀ (pd : ProfData) (p s k : String), NodupKeys sections →
      (∀ e ∈ sections, NodupKeys e.2) →
      cfgLookup (sections.foldl (fun acc e => mergeSection acc prof e) pd) p s k =
        if p = prof then
          ((dictGet? sections s).bind (fun params => dictGet? params k)).or
            (cfgLookup pd p s k)
        else cfgLookup pd p s k := by
  induction sections with
  | nil =>
    intro pd p s k _ _
    rw [List.foldl_nil, show dictGet? ([] : Dict (Dict PyVal)) s = Option.none from rfl,
      option_none_bind, option_none_or]
    split <;> rfl
  | cons e rest ih =>
    intro pd p s k hnd hsec
    have h2 : e.1 ∉ rest.map Prod.fst ∧ NodupKeys rest := by
      have h := hnd
      unfold NodupKeys at h
      rw [List.map_cons, List.nodup_cons] at h
      exact h
    rw [List.foldl_cons, ih (mergeSection pd prof e) p s k h2.2
      (fun u hu => hsec u (List.mem_cons_of_mem _ hu))]
    rw [cfgLookup_mergeSection pd prof e p s k (hsec e (List.mem_cons_self _ _))]
    by_cases hp : p = prof
    · subst hp
      rw [if_pos rfl, if_pos rfl]
      by_cases hs : s = e.1
      · subst hs
        rw [if_pos ⟨rfl, rfl⟩, dictGet?_eq_none_of_not_mem rest e.1 h2.1,
          dictGet?_cons_self e rest e.1 rfl, option_none_bind, option_none_or,
          option_some_bind]
      · rw [if_neg (fun hc => hs hc.2), dictGet?_cons_ne e rest s (fun h => hs h.symm)]
    · rw [if_neg hp, if_neg hp, if_neg (fun hc => hp hc.1)]

/-- Merging one whole profile of a parsed document. -/
theorem cfgLookup_mergeProfile (pd : ProfData) (pEntry : String × Dict (Dict PyVal))
    (p s k : String) (hnd : NodupKeys pEntry.2)
    (hsec : ∀ e ∈ pEntry.2, NodupKeys e.2) :
    cfgLookup (mergeProfile pd pEntry) p s k =
      if p = pEntry.1 then
        ((dictGet? pEntry.2 s).bind (fun params => dictGet? params k)).or
          (cfgLookup pd p s k)
      else cfgLookup pd p s k := by
  unfold mergeProfile
  rw [cfgLookup_mergeSections pEntry.1 pEntry.2 _ p s k hnd hsec,
    cfgLookup_ensure pd pEntry.1 p s k]

/-- Merging a whole parsed document: the document's values win, everything
else falls back to the store. -/
theorem cfgLookup_mergeDoc (cfg : Doc) :
    ∀ (pd : ProfData) (p s k : String), WFDoc cfg →
      cfgLookup (mergeDoc pd cfg) p s k =
        (cfgLookup cfg p s k).or (cfgLookup pd p s k) := by
  induction cfg with
  | nil =>
    intro pd p s k _
    rw [show mergeDoc pd ([] : Doc) = pd from rfl,
      show cfgLookup ([] : Doc) p s k = Option.none from rfl, option_none_or]
  | cons e rest ih =>
    intro pd p s k hwf
    obtain ⟨hnd, hin⟩ := hwf
    have h2 : e.1 ∉ rest.map Prod.fst ∧ NodupKeys rest := by
      have h := hnd
      unfold NodupKeys at h
      rw [List.map_cons, List.nodup_cons] at h
      exact h
    have hwf' : WFDoc rest := ⟨h2.2, fun u hu => hin u (List.mem_cons_of_mem _ hu)⟩
    rw [show mergeDoc pd (e :: rest) = mergeDoc (mergeProfile pd e) rest from rfl,
      ih (mergeProfile pd e) p s k hwf',
      cfgLookup_mergeProfile pd e p s k (hin e (List.mem_cons_self _ _)).1
        (hin e (List.mem_cons_self _ _)).2]
    by_cases hp : p = e.1
    · subst hp
      rw [if_pos rfl]
      have hrest : cfgLookup rest e.1 s k = Option.none := by
        unfold cfgLookup
        rw [dictGet?_eq_none_of_not_mem rest e.1 h2.1, option_none_bind]
      have hhead : cfgLookup (e :: rest) e.1 s k =
          (dictGet? e.2 s).bind (fun params => dictGet? params k) := by
        unfold cfgLookup
        rw [dictGet?_cons_self e rest e.1 rfl, option_some_bind]
      rw [hrest, hhead, option_none_or]
    · rw [if_neg hp]
      have hhead : cfgLookup (e :: rest) p s k = cfgLookup rest p s k := by
        unfold cfgLookup
        rw [dictGet?_cons_ne e rest p (fun h => hp h.symm)]
      rw [hhead]

/-- Folding a document list into a store: last writer wins. -/
theorem cfgLookup_foldl_docs (docs : List Doc) :
    ∀ (pd : ProfData) (p s k : String), (∀ d ∈ docs, WFDoc d) →
      cfgLookup (docs.foldl mergeDoc pd) p s k =
        (lastSet docs p s k).or (cfgLookup pd p s k) := by
  induction docs with
  | nil =>
    intro pd p s k _
    rw [List.foldl_nil, show lastSet ([] : List Doc) p s k = Option.none from rfl,
      option_none_or]
  | cons d rest ih =>
    intro pd p s k hwf
    rw [List.foldl_cons, ih (mergeDoc pd d) p s k
      (fun u hu => hwf u (List.mem_cons_of_mem _ hu)),
      cfgLookup_mergeDoc d pd p s k (hwf d (List.mem_cons_self _ _))]
    unfold lastSet
    rw [List.reverse_cons, List.findSome?_append]
    have hsingle : List.findSome? (fun d => cfgLookup d p s k) [d] =
        cfgLookup d p s k := by
      unfold List.findSome?
      cases cfgLookup d p s k <;> rfl
    rw [hsingle, Option.or_assoc]

/-- C3: after any sequence of successful loads, the aggregated
`profile_data` holds, for every (profile, section, parameter) triple,
exactly the value from the last-loaded document that set it — so each
section mapping is the union of the keys seen across loaded files with
later files winning per key and untouched keys preserved.  The second part
ties loads to the pure merge: every `load` returning `true` merges exactly
the document it read. -/
theorem profile_data_last_wins :
    (∀ (docs : List Doc) (prof sect key : String), (∀ d ∈ docs, WFDoc d) →
      cfgLookup (docs.foldl mergeDoc []) prof sect key = lastSet docs prof sect key) ∧
    (∀ (fs : String → Option Doc) (resolve : String → String) (st st2 : Config)
        (file : String),
      Config.load fs resolve st file = (st2, Except.ok true) →
      ∃ cfg, fs (resolvedPath resolve st.config_dir file) = some cfg ∧
        st2.profile_data = mergeDoc st.profile_data cfg) := by
  constructor
  · intro docs prof sect key hwf
    rw [cfgLookup_foldl_docs docs [] prof sect key hwf]
    have : cfgLookup ([] : ProfData) prof sect key = Option.none := rfl
    rw [this]
    cases lastSet docs prof sect key <;> rfl
  · intro fs resolve st st2 file h
    obtain ⟨_, cfg, hfs, _, hst2⟩ := load_ok_cases fs resolve st st2 file h
    exact ⟨cfg, hfs, by rw [hst2]⟩

/-- C3 witness: the spec's two-file example.  File A sets
`default.scoring.weight = 1` and `default.scoring.other_key = 7`; file B
sets `weight = 2`.  After loading A then B, `weight` is B's value,
`other_key` keeps A's value, and an unset key is absent; the load of f2 on
top of f1's store merges exactly f2's document. -/
theorem profile_data_last_wins_witness :
    (∀ d ∈ [[("default", [("scoring", [("weight", PyVal.int 1), ("other_key", PyVal.int 7)])])],
            [("default", [("scoring", [("weight", PyVal.int 2)])])]], WFDoc d) ∧
    cfgLookup ([[("default", [("scoring", [("weight", PyVal.int 1), ("other_key", PyVal.int 7)])])],
        [("default", [("scoring", [("weight", PyVal.int 2)])])]].foldl mergeDoc [])
        "default" "scoring" "weight" =
      lastSet [[("default", [("scoring", [("weight", PyVal.int 1), ("other_key", PyVal.int 7)])])],
        [("default", [("scoring", [("weight", PyVal.int 2)])])]] "default" "scoring" "weight" ∧
    cfgLookup ([[("default", [("scoring", [("weight", PyVal.int 1), ("other_key", PyVal.int 7)])])],
        [("default", [("scoring", [("weight", PyVal.int 2)])])]].foldl mergeDoc [])
        "default" "scoring" "other_key" =
      lastSet [[("default", [("scoring", [("weight", PyVal.int 1), ("other_key", PyVal.int 7)])])],
        [("default", [("scoring", [("weight", PyVal.int 2)])])]] "default" "scoring" "other_key" ∧
    Config.load demoFs id demoSt1 "f2" =
      (⟨some "/d", ["/d/f1", "/d/f2"],
        [("default", [("scoring", [("weight", PyVal.int 2), ("other_key", PyVal.int 7)])])]⟩,
        Except.ok true) ∧
    ∃ cfg, demoFs (resolvedPath id demoSt1.config_dir "f2") = some cfg ∧
      (⟨some "/d", ["/d/f1", "/d/f2"],
        [("default", [("scoring", [("weight", PyVal.int 2), ("other_key", PyVal.int 7)])])]⟩ :
          Config).profile_data = mergeDoc demoSt1.profile_data cfg := by
  refine ⟨by decide, ?_, ?_, by decide, ?_⟩
  · exact profile_data_last_wins.1 _ "default" "scoring" "weight" (by decide)
  · exact profile_data_last_wins.1 _ "default" "scoring" "other_key" (by decide)
  · exact profile_data_last_wins.2 demoFs id demoSt1 _ "f2" (by decide)

/-- `str.split` never returns an empty list (splitting the empty string
gives `[""]`). -/
theorem splitCommaAux_ne_nil : ∀ (l acc : List Char), splitCommaAux l acc ≠ [] := by
  intro l
  induction l with
  | nil => intro acc h; exact List.noConfusion h
  | cons c rest ih =>
    intro acc
    unfold splitCommaAux
    by_cases hc : c = ','
    · rw [if_pos hc]
      intro h
      exact List.noConfusion h
    · rw [if_neg hc]
      exact ih (c :: acc)

/-- C9: the constructor rejects a non-string, non-iterable `files` value
with the bad-argument error; a comma-separated string whose pieces are all
unreadable fails (there is always at least one piece, and the first
invalid file aborts); a string argument is exactly the split list loaded
in order; and a load failure anywhere in the list propagates and aborts
construction, ignoring the remaining files. -/
theorem config_init_spec :
    (∀ (fs : String → Option Doc) (resolve : String → String) (cd : Option String),
      Config.init fs resolve FilesArg.notIterable cd =
        Except.error "Bad argument, files not iterable") ∧
    (∀ (fs : String → Option Doc) (resolve : String → String) (cd : Option String)
        (s : String),
      (∀ f ∈ pySplitComma s, fs (resolvedPath resolve cd f) = Option.none) →
      ∃ e, Config.init fs resolve (FilesArg.str s) cd = Except.error e) ∧
    (∀ (fs : String → Option Doc) (resolve : String → String) (cd : Option String)
        (s : String),
      Config.init fs resolve (FilesArg.str s) cd =
        Config.init fs resolve (FilesArg.iter (pySplitComma s)) cd) ∧
    (∀ (fs : String → Option Doc) (resolve : String → String) (cd : Option String)
        (l₁ : List String) (f : String) (l₂ : List String) (st : Config) (e : String),
      loadAll fs resolve cd l₁ = Except.ok st →
      (Config.load fs resolve st f).2 = Except.error e →
      Config.init fs resolve (FilesArg.iter (l₁ ++ f :: l₂)) cd = Except.error e) := by
  refine ⟨fun _ _ _ => rfl, ?_, fun _ _ _ _ => rfl, ?_⟩
  · intro fs resolve cd s h
    cases hsp : pySplitComma s with
    | nil => exact absurd hsp (splitCommaAux_ne_nil _ _)
    | cons f rest =>
      refine ⟨"could not open or parse " ++ f, ?_⟩
      have hf : fs (resolvedPath resolve cd f) = Option.none :=
        h f (by rw [hsp]; exact List.mem_cons_self _ _)
      show loadAll fs resolve cd (pySplitComma s) = _
      rw [hsp]
      unfold loadAll
      rw [List.foldlM_cons]
      have hload : Config.load fs resolve (initState cd) f =
          (initState cd, Except.error ("could not open or parse " ++ f)) := by
        unfold Config.load
        have hpath : resolvedPath resolve (initState cd).config_dir f =
            resolvedPath resolve cd f := rfl
        rw [hpath]
        have hmem : (resolvedPath resolve cd f ∈ (initState cd).filepaths) = False := by
          simp [initState]
        rw [if_neg (by rw [hmem]; exact id), hf]
      rw [hload]
      rfl
  · intro fs resolve cd l₁ f l₂ st e h1 h2
    show loadAll fs resolve cd (l₁ ++ f :: l₂) = _
    unfold loadAll at *
    rw [List.foldlM_append, h1]
    rw [show ((Except.ok st : Except String Config) >>= fun st' =>
        (f :: l₂).foldlM (fun st file =>
          match Config.load fs resolve st file with
          | (st2, Except.ok _) => Except.ok st2
          | (_, Except.error e) => Except.error e) st') =
      ((f :: l₂).foldlM (fun st file =>
          match Config.load fs resolve st file with
          | (st2, Except.ok _) => Except.ok st2
          | (_, Except.error e) => Except.error e) st) from rfl]
    rw [List.foldlM_cons]
    cases hl : Config.load fs resolve st f with
    | mk st2 r =>
      rw [hl] at h2
      simp only at h2
      rw [h2]
      rfl

/-- C9 witness: a fresh store rejects `""` (whose comma-split is `[""]`,
all unreadable); loading `["f1", "zzz", "f2"]` aborts at the unreadable
`zzz` with its error even though `f2` would load. -/
theorem config_init_spec_witness :
    (∀ f ∈ pySplitComma "", demoFs (resolvedPath id (some "/x") f) = Option.none) ∧
    (∃ e, Config.init demoFs id (FilesArg.str "") (some "/x") = Except.error e) ∧
    loadAll demoFs id (some "/d") ["f1"] = Except.ok demoSt1 ∧
    (Config.load demoFs id demoSt1 "zzz").2 =
      Except.error "could not open or parse zzz" ∧
    Config.init demoFs id (FilesArg.iter (["f1"] ++ "zzz" :: ["f2"])) (some "/d") =
      Except.error "could not open or parse zzz" := by
  have hb : ∀ f ∈ pySplitComma "", demoFs (resolvedPath id (some "/x") f) = Option.none := by
    intro f hf
    rw [show pySplitComma "" = [""] from by decide] at hf
    rcases List.mem_singleton.mp hf with rfl
    decide
  exact ⟨hb, config_init_spec.2.1 demoFs id (some "/x") "" hb, by decide, by decide,
    config_init_spec.2.2.2 demoFs id (some "/d") ["f1"] "zzz" ["f2"] demoSt1
      "could not open or parse zzz" (by decide) (by decide)⟩

/-- `List.set` at a different position leaves `getD` unchanged. -/
theorem getD_set_ne (l : List ℚ) (i j : ℕ) (v d : ℚ) (h : i ≠ j) :
    (l.set i v).getD j d = l.getD j d := by
  simp [List.getD_eq_getElem?_getD, List.getElem?_set, h]

/-- `List.set` in bounds writes the value. -/
theorem getD_set_self (l : List ℚ) (i : ℕ) (v d : ℚ) (h : i < l.length) :
    (l.set i v).getD i d = v := by
  simp [List.getD_eq_getElem?_getD, List.getElem?_set, h]

/-- Peeling the first write off `writeRange`. -/
theorem writeRange_succ (ivec : List ℕ) (v : ℚ) (lo m : ℕ) (arr : List ℚ) :
    writeRange ivec v lo (m + 1) arr =
      writeRange ivec v (lo + 1) m (arr.set (ivec.getD lo 0) v) := by
  unfold writeRange
  rw [List.range'_succ, List.foldl_cons]

/-- `writeRange` preserves length. -/
theorem writeRange_length (ivec : List ℕ) (v : ℚ) :
    ∀ (len lo : ℕ) (arr : List ℚ),
      (writeRange ivec v lo len arr).length = arr.length := by
  intro len
  induction len with
  | zero => intro lo arr; rfl
  | succ m ih =>
    intro lo arr
    rw [writeRange_succ, ih, List.length_set]

/-- Positions other than the written ones are unchanged by `writeRange`. -/
theorem writeRange_getD_ne (ivec : List ℕ) (v : ℚ) :
    ∀ (len lo : ℕ) (arr : List ℚ) (pos : ℕ) (d : ℚ),
      (∀ j, lo ≤ j → j < lo + len → ivec.getD j 0 ≠ pos) →
      (writeRange ivec v lo len arr).getD pos d = arr.getD pos d := by
  intro len
  induction len with
  | zero => intro lo arr pos d _; rfl
  | succ m ih =>
    intro lo arr pos d h
    rw [writeRange_succ, ih (lo + 1) _ pos d (fun j hj1 hj2 => h j (by omega) (by omega))]
    exact getD_set_ne _ _ _ _ _ (h lo (le_refl lo) (by omega))

/-- The written positions all receive the value, provided the written
positions are pairwise distinct and in bounds. -/
theorem writeRange_getD_hit (ivec : List ℕ) (v : ℚ) :
    ∀ (len lo : ℕ) (arr : List ℚ) (jstar : ℕ) (d : ℚ),
      lo ≤ jstar → jstar < lo + len →
      (∀ j, lo ≤ j → j < lo + len → j ≠ jstar → ivec.getD j 0 ≠ ivec.getD jstar 0) →
      ivec.getD jstar 0 < arr.length →
      (writeRange ivec v lo len arr).getD (ivec.getD jstar 0) d = v := by
  intro len
  induction len with
  | zero => intro lo arr jstar d h1 h2 _ _; omega
  | succ m ih =>
    intro lo arr jstar d h1 h2 hinj hlt
    rw [writeRange_succ]
    by_cases hj : lo = jstar
    · subst hj
      rw [writeRange_getD_ne ivec v m (lo + 1) _ _ _
        (fun j hj1 hj2 => hinj j (by omega) (by omega) (by omega))]
      exact getD_set_self _ _ _ _ hlt
    · exact ih (lo + 1) (arr.set (ivec.getD lo 0) v) jstar d (by omega) (by omega)
        (fun j hj1 hj2 hne => hinj j (by omega) (by omega) hne)
        (by rw [List.length_set]; exact hlt)

/-- The loop body when position `i` closes a group. -/
theorem rankStep_break (svec : List ℚ) (ivec : List ℕ) (useMin : Bool) (n : ℕ)
    (st : RankState) (i : ℕ) (h : runBreak svec n i) :
    rankStep svec ivec useMin n st i =
      ⟨0, 0, 0,
        writeRange ivec
          (if useMin then ((if st.minrank = 0 then i + 1 else st.minrank : ℕ) : ℚ)
           else ((st.sumranks + i : ℕ) : ℚ) / ((st.dupcount + 1 : ℕ) : ℚ) + 1)
          (i + 1 - (st.dupcount + 1)) (st.dupcount + 1) st.newarray⟩ := by
  unfold rankStep
  rw [if_pos h]

/-- The loop body when position `i` does not close a group. -/
theorem rankStep_no_break (svec : List ℚ) (ivec : List ℕ) (useMin : Bool) (n : ℕ)
    (st : RankState) (i : ℕ) (h : ¬ runBreak svec n i) :
    rankStep svec ivec useMin n st i =
      ⟨st.sumranks + i, st.dupcount + 1,
        if st.minrank = 0 then i + 1 else st.minrank, st.newarray⟩ := by
  unfold rankStep
  rw [if_neg h]

/-- The loop never changes the length of `newarray`. -/
theorem rankLoop_length (svec : List ℚ) (ivec : List ℕ) (useMin : Bool) (n : ℕ) :
    ∀ (m q : ℕ) (st : RankState),
      (((List.range' q m).foldl (rankStep svec ivec useMin n) st).newarray).length =
        st.newarray.length := by
  intro m
  induction m with
  | zero => intro q st; rfl
  | succ m ih =>
    intro q st
    rw [List.range'_succ, List.foldl_cons, ih (q + 1) _]
    by_cases hbr : runBreak svec n q
    · rw [rankStep_break _ _ _ _ _ _ hbr]
      exact writeRange_length _ _ _ _ _
    · rw [rankStep_no_break _ _ _ _ _ _ hbr]

/-- `rankStep_break` with the state fields spelled out. -/
theorem rankStep_break_mk (svec : List ℚ) (ivec : List ℕ) (useMin : Bool) (n : ℕ)
    (S D M : ℕ) (arr : List ℚ) (i : ℕ) (h : runBreak svec n i) :
    rankStep svec ivec useMin n ⟨S, D, M, arr⟩ i =
      ⟨0, 0, 0,
        writeRange ivec
          (if useMin then ((if M = 0 then i + 1 else M : ℕ) : ℚ)
           else ((S + i : ℕ) : ℚ) / ((D + 1 : ℕ) : ℚ) + 1)
          (i + 1 - (D + 1)) (D + 1) arr⟩ :=
  rankStep_break svec ivec useMin n ⟨S, D, M, arr⟩ i h

/-- `rankStep_no_break` with the state fields spelled out. -/
theorem rankStep_no_break_mk (svec : List ℚ) (ivec : List ℕ) (useMin : Bool) (n : ℕ)
    (S D M : ℕ) (arr : List ℚ) (i : ℕ) (h : ¬ runBreak svec n i) :
    rankStep svec ivec useMin n ⟨S, D, M, arr⟩ i =
      ⟨S + i, D + 1, if M = 0 then i + 1 else M, arr⟩ :=
  rankStep_no_break svec ivec useMin n ⟨S, D, M, arr⟩ i h

/-- Inside a group (no break), the loop just accumulates `sumranks` and
`dupcount`, keeping `minrank` and the array. -/
theorem rankLoop_run_mid (svec : List ℚ) (ivec : List ℕ) (useMin : Bool) (n : ℕ) :
    ∀ (t p S D M : ℕ) (arr : List ℚ), M ≠ 0 →
      (∀ u, u < t → ¬ runBreak svec n (p + u)) →
      (List.range' p t).foldl (rankStep svec ivec useMin n) ⟨S, D, M, arr⟩ =
        ⟨S + (List.range' p t).sum, D + t, M, arr⟩ := by
  intro t
  induction t with
  | zero =>
    intro p S D M arr _ _
    simp [List.range']
  | succ t ih =>
    intro p S D M arr hM h
    rw [List.range'_succ, List.foldl_cons,
      rankStep_no_break_mk _ _ _ _ _ _ _ _ _ (by simpa using h 0 (by omega)),
      if_neg hM,
      ih (p + 1) (S + p) (D + 1) M arr hM
        (fun u hu => by
          have := h (u + 1) (by omega)
          simpa [show p + (u + 1) = p + 1 + u from by omega] using this),
      List.sum_cons]
    congr 1 <;> omega

/-- A group started on a reset state accumulates its positions' sum, its
length, and `minrank = p + 1`. -/
theorem rankLoop_run0 (svec : List ℚ) (ivec : List ℕ) (useMin : Bool) (n : ℕ) :
    ∀ (t p : ℕ) (arr : List ℚ),
      (∀ u, u < t + 1 → ¬ runBreak svec n (p + u)) →
      (List.range' p (t + 1)).foldl (rankStep svec ivec useMin n) ⟨0, 0, 0, arr⟩ =
        ⟨(List.range' p (t + 1)).sum, t + 1, p + 1, arr⟩ := by
  intro t p arr h
  rw [List.range'_succ, List.foldl_cons,
    rankStep_no_break_mk _ _ _ _ _ _ _ _ _ (by simpa using h 0 (by omega)),
    if_pos rfl,
    rankLoop_run_mid svec ivec useMin n t (p + 1) (0 + p) (0 + 1) (p + 1) arr (by omega)
      (fun u hu => by
        have := h (u + 1) (by omega)
        simpa [show p + (u + 1) = p + 1 + u from by omega] using this),
    List.sum_cons]
  congr 1 <;> omega

/-- A complete group of length `k` starting at `p` on a reset state: the
loop writes the group's rank — `p + 1` for `"min"`, the average rank for
`"average"` — at `ivec[p] … ivec[p+k-1]` and resets. -/
theorem rankLoop_run_closed (svec : List ℚ) (ivec : List ℕ) (useMin : Bool) (n : ℕ) :
    ∀ (k p : ℕ) (arr : List ℚ), 0 < k →
      (∀ u, u < k - 1 → ¬ runBreak svec n (p + u)) →
      runBreak svec n (p + k - 1) →
      (List.range' p k).foldl (rankStep svec ivec useMin n) ⟨0, 0, 0, arr⟩ =
        ⟨0, 0, 0,
          writeRange ivec
            (if useMin then ((p + 1 : ℕ) : ℚ)
             else (((List.range' p k).sum : ℕ) : ℚ) / (k : ℚ) + 1) p k arr⟩ := by
  intro k
  cases k with
  | zero => intro p arr hk; omega
  | succ k' =>
    intro p arr _ hmid hend
    cases k' with
    | zero =>
      rw [show List.range' p 1 = [p] from rfl, List.foldl_cons, List.foldl_nil,
        rankStep_break_mk _ _ _ _ _ _ _ _ _ (by simpa using hend)]
      by_cases hm : useMin = true <;> simp [hm]
    | succ k'' =>
      have hconcat : List.range' p (k'' + 1 + 1) =
          List.range' p (k'' + 1) ++ [p + (k'' + 1)] := by
        have h := @List.range'_concat 1 p (k'' + 1)
        simpa using h
      rw [hconcat, List.foldl_append,
        rankLoop_run0 svec ivec useMin n k'' p arr (fun u hu => hmid u (by omega)),
        List.foldl_cons, List.foldl_nil,
        rankStep_break_mk _ _ _ _ _ _ _ _ _ (by
          have he : p + (k'' + 1 + 1) - 1 = p + (k'' + 1) := by omega
          rw [he] at hend
          exact hend)]
      have e1 : p + (k'' + 1) + 1 - (k'' + 1 + 1) = p := by omega
      have e2 : (List.range' p (k'' + 1) ++ [p + (k'' + 1)]).sum =
          (List.range' p (k'' + 1)).sum + (p + (k'' + 1)) := by
        rw [List.sum_append]
        simp
      rw [e1, e2]
      by_cases hm : useMin = true <;> simp [hm]

/-- Starting from a state whose `dupcount` reaches back at most to `q - D`,
the loop over positions `[q, q+m)` only writes array positions `ivec[j]`
for `j ∈ [q - D, q + m)`. -/
theorem rankLoop_untouched (svec : List ℚ) (ivec : List ℕ) (useMin : Bool) (n : ℕ) :
    ∀ (m q S D M : ℕ) (arr : List ℚ) (pos : ℕ) (d : ℚ), D ≤ q →
      (∀ j, q - D ≤ j → j < q + m → ivec.getD j 0 ≠ pos) →
      (((List.range' q m).foldl (rankStep svec ivec useMin n)
          ⟨S, D, M, arr⟩).newarray).getD pos d = arr.getD pos d := by
  intro m
  induction m with
  | zero => intro q S D M arr pos d _ _; rfl
  | succ m ih =>
    intro q S D M arr pos d hDq h
    rw [List.range'_succ, List.foldl_cons]
    by_cases hbr : runBreak svec n q
    · rw [rankStep_break_mk _ _ _ _ _ _ _ _ _ hbr,
        ih (q + 1) 0 0 0 _ pos d (by omega)
          (fun j h1 h2 => h j (by omega) (by omega))]
      exact writeRange_getD_ne ivec _ (D + 1) (q + 1 - (D + 1)) arr pos d
        (fun j h1 h2 => h j (by omega) (by omega))
    · rw [rankStep_no_break_mk _ _ _ _ _ _ _ _ _ hbr]
      exact ih (q + 1) (S + q) (D + 1) _ arr pos d (by omega)
        (fun j h1 h2 => h j (by omega) (by omega))

/-- The index permutation has the input's length. -/
theorem rank_simple_length (a : List ℚ) (r : Bool) :
    (rank_simple a r).length = a.length := by
  unfold rank_simple
  rw [List.length_insertionSort, List.length_range]

/-- The index list is a permutation of `range n`. -/
theorem rank_simple_perm (a : List ℚ) (r : Bool) :
    (rank_simple a r).Perm (List.range a.length) :=
  List.perm_insertionSort _ _

/-- The index list is sorted by the stable comparison order. -/
theorem rank_simple_sorted (a : List ℚ) (r : Bool) :
    List.Pairwise (rankRel a r) (rank_simple a r) :=
  List.sorted_insertionSort _ _

/-- The index list has no duplicates. -/
theorem rank_simple_nodup (a : List ℚ) (r : Bool) : (rank_simple a r).Nodup :=
  ((rank_simple_perm a r).symm).nodup (List.nodup_range _)

/-- Every entry of the index list is an in-range index. -/
theorem rank_simple_getD_lt (a : List ℚ) (r : Bool) (j : ℕ) (hj : j < a.length) :
    (rank_simple a r).getD j 0 < a.length := by
  have hlen := rank_simple_length a r
  have hj' : j < (rank_simple a r).length := by omega
  have hmem : (rank_simple a r).getD j 0 ∈ rank_simple a r := by
    rw [List.getD_eq_getElem?_getD, List.getElem?_eq_getElem hj']
    exact List.getElem_mem _
  exact List.mem_range.mp ((rank_simple_perm a r).mem_iff.mp hmem)

/-- Distinct positions of the index list carry distinct indices. -/
theorem rank_simple_getD_inj (a : List ℚ) (r : Bool) (j1 j2 : ℕ)
    (h1 : j1 < a.length) (h2 : j2 < a.length) (hne : j1 ≠ j2) :
    (rank_simple a r).getD j1 0 ≠ (rank_simple a r).getD j2 0 := by
  have hlen := rank_simple_length a r
  have hj1 : j1 < (rank_simple a r).length := by omega
  have hj2 : j2 < (rank_simple a r).length := by omega
  rw [List.getD_eq_getElem?_getD, List.getElem?_eq_getElem hj1,
    List.getD_eq_getElem?_getD, List.getElem?_eq_getElem hj2]
  simp only [Option.getD_some]
  intro heq
  exact hne (((rank_simple_nodup a r).getElem_inj_iff).mp heq)

/-- The sorted-value list has the input's length. -/
theorem rank_svec_length (a : List ℚ) (r : Bool) :
    (rank_svec a r).length = a.length := by
  unfold rank_svec
  rw [List.length_map, rank_simple_length]

/-- Core of claim C6: when the sorted values decompose as
`A ++ replicate k v ++ B` with `v` different from `A`'s last and `B`'s
first element (a maximal group of `k` equal values at sorted positions
`A.length … A.length+k-1`), every member of the group receives the
group's rank: `p+1` under `"min"`, the average of the occupied ranks
otherwise. -/
theorem rankdata_group_value (a : List ℚ) (reverse : Bool) (method : String)
    (A B : List ℚ) (v : ℚ) (k : ℕ) (hk : 0 < k)
    (hdec : rank_svec a reverse = A ++ (List.replicate k v ++ B))
    (hA : ∀ x, A.getLast? = some x → x ≠ v)
    (hB : ∀ x, B.head? = some x → x ≠ v) :
    ∀ j, A.length ≤ j → j < A.length + k →
      (rankdata a method reverse).getD ((rank_simple a reverse).getD j 0) 0 =
        (if method == "min" then ((A.length + 1 : ℕ) : ℚ)
         else (((List.range' A.length k).sum : ℕ) : ℚ) / (k : ℚ) + 1) := by
  intro j hj1 hj2
  have hn : a.length = A.length + k + B.length := by
    have h1 : (rank_svec a reverse).length = a.length := rank_svec_length a reverse
    rw [hdec] at h1
    simp at h1
    omega
  have hrun : ∀ u, u < k → (rank_svec a reverse).getD (A.length + u) 0 = v := by
    intro u hu
    rw [hdec, List.getD_append_right A _ 0 (A.length + u) (by omega)]
    have e : A.length + u - A.length = u := by omega
    rw [e, List.getD_append _ _ 0 u (by simpa using hu)]
    rw [List.getD_eq_getElem?_getD]
    simp [List.getElem?_replicate, hu]
  have hpre : 0 < A.length → (rank_svec a reverse).getD (A.length - 1) 0 ≠ v := by
    intro hp0
    rw [hdec, List.getD_append _ _ 0 _ (by omega)]
    have hx : A.getLast? = some (A.getD (A.length - 1) 0) := by
      rw [List.getLast?_eq_getElem?,
        List.getElem?_eq_getElem (show A.length - 1 < A.length by omega),
        List.getD_eq_getElem?_getD,
        List.getElem?_eq_getElem (show A.length - 1 < A.length by omega)]
      rfl
    exact hA _ hx
  have hpost : A.length + k < a.length →
      (rank_svec a reverse).getD (A.length + k) 0 ≠ v := by
    intro hlt
    have hBne : 0 < B.length := by omega
    rw [hdec, List.getD_append_right A _ 0 _ (by omega)]
    have e : A.length + k - A.length = k := by omega
    rw [e, List.getD_append_right _ B 0 k (by simp)]
    have e2 : k - (List.replicate k v).length = 0 := by simp
    rw [e2]
    have hx : B.head? = some (B.getD 0 0) := by
      rw [List.head?_eq_getElem?, List.getElem?_eq_getElem hBne,
        List.getD_eq_getElem?_getD, List.getElem?_eq_getElem hBne]
      rfl
    exact hB _ hx
  have hmid : ∀ u, u < k - 1 →
      ¬ runBreak (rank_svec a reverse) a.length (A.length + u) := by
    intro u hu
    unfold runBreak
    push_neg
    constructor
    · omega
    · rw [hrun u (by omega)]
      have e : A.length + u + 1 = A.length + (u + 1) := by omega
      rw [e, hrun (u + 1) (by omega)]
  have hend : runBreak (rank_svec a reverse) a.length (A.length + k - 1) := by
    unfold runBreak
    by_cases heq : A.length + k = a.length
    · left
      omega
    · right
      have hlt : A.length + k < a.length := by omega
      have e : A.length + k - 1 + 1 = A.length + k := by omega
      rw [e]
      have e2 : A.length + k - 1 = A.length + (k - 1) := by omega
      rw [e2, hrun (k - 1) (by omega)]
      exact Ne.symm (hpost hlt)
  have hpreState : ∃ arrP, (List.range' 0 A.length).foldl
      (rankStep (rank_svec a reverse) (rank_simple a reverse) (method == "min") a.length)
      ⟨0, 0, 0, List.replicate a.length 0⟩ = ⟨0, 0, 0, arrP⟩ ∧
      arrP.length = a.length := by
    cases hp0 : A.length with
    | zero =>
      refine ⟨List.replicate a.length 0, ?_, by simp⟩
      rw [show List.range' 0 0 = ([] : List ℕ) from rfl, List.foldl_nil]
    | succ p' =>
      have hconcat : List.range' 0 (p' + 1) = List.range' 0 p' ++ [p'] := by
        have h := @List.range'_concat 1 0 p'
        simp at h
        exact h
      rw [hconcat, List.foldl_append]
      rcases hst : (List.range' 0 p').foldl
          (rankStep (rank_svec a reverse) (rank_simple a reverse) (method == "min") a.length)
          ⟨0, 0, 0, List.replicate a.length 0⟩ with ⟨S₁, D₁, M₁, arr₁⟩
      have hbr : runBreak (rank_svec a reverse) a.length p' := by
        unfold runBreak
        right
        have h1 := hpre (by omega)
        have h2 := hrun 0 (by omega)
        have e1 : A.length - 1 = p' := by omega
        have e2 : A.length + 0 = p' + 1 := by omega
        rw [e1] at h1
        rw [e2] at h2
        rw [h2]
        exact h1
      rw [List.foldl_cons, List.foldl_nil, rankStep_break_mk _ _ _ _ _ _ _ _ _ hbr]
      refine ⟨_, rfl, ?_⟩
      rw [writeRange_length]
      have hl := rankLoop_length (rank_svec a reverse) (rank_simple a reverse)
        (method == "min") a.length p' 0 ⟨0, 0, 0, List.replicate a.length 0⟩
      rw [hst] at hl
      simpa using hl
  obtain ⟨arrP, hprefix, harrP⟩ := hpreState
  have hsplit : List.range a.length =
      List.range' 0 A.length ++ (List.range' A.length k ++
        List.range' (A.length + k) (a.length - (A.length + k))) := by
    rw [List.range_eq_range']
    have h1 : List.range' A.length k ++
        List.range' (A.length + k) (a.length - (A.length + k)) =
        List.range' A.length (a.length - (A.length + k) + k) := by
      simp
    rw [h1]
    have h2 := List.range'_append 0 A.length (a.length - (A.length + k) + k) 1
    simp only [Nat.zero_add, Nat.one_mul] at h2
    rw [h2]
    congr 1
    omega
  unfold rankdata
  rw [hsplit, List.foldl_append, List.foldl_append, hprefix,
    rankLoop_run_closed _ _ _ _ k A.length arrP hk hmid hend,
    rankLoop_untouched _ _ _ _ (a.length - (A.length + k)) (A.length + k) 0 0 0 _
      ((rank_simple a reverse).getD j 0) 0 (by omega)
      (fun j' hj1' hj2' =>
        rank_simple_getD_inj a reverse j' j (by omega) (by omega) (by omega)),
    writeRange_getD_hit _ _ k A.length arrP j 0 hj1 hj2
      (fun j' h1 h2 hne => rank_simple_getD_inj a reverse j' j (by omega) (by omega) hne)
      (by rw [harrP]; exact rank_simple_getD_lt a reverse j (by omega))]

/-- Shifting a block of consecutive integers up by one adds its length to
its sum. -/
theorem sum_range'_shift : ∀ (k p : ℕ),
    (List.range' (p + 1) k).sum = (List.range' p k).sum + k := by
  intro k
  induction k with
  | zero => intro p; simp [List.range']
  | succ t ih =>
    intro p
    rw [List.range'_succ, List.range'_succ, List.sum_cons, List.sum_cons, ih (p + 1)]
    omega

/-- C6: `rankdata` stably sorts indices by value in the requested
direction (the index list is a permutation of `range n`, ordered by the
direction's strict order with the original index as tie-break), and for a
maximal group of `k` consecutive equal values starting at 0-based sorted
position `p = A.length`, every member receives rank `p + 1` under `"min"`
and `mean(p+1 .. p+k)` under `"average"`; the output always has the
input's length and index correspondence.  In particular
`rank([10,20,20,5], "average", descending)` is `[3, 1.5, 1.5, 4]`,
`rank([10,20,20,5], "min", descending)` is `[3, 1, 1, 4]`, the empty
input yields the empty list, and a singleton always gets rank 1. -/
theorem rankdata_spec (a : List ℚ) (reverse : Bool) (A B : List ℚ) (v : ℚ) (k : ℕ)
    (hk : 0 < k)
    (hdec : rank_svec a reverse = A ++ (List.replicate k v ++ B))
    (hA : ∀ x, A.getLast? = some x → x ≠ v)
    (hB : ∀ x, B.head? = some x → x ≠ v) :
    (∀ method, (rankdata a method reverse).length = a.length) ∧
    (rank_simple a reverse).Perm (List.range a.length) ∧
    List.Pairwise (rankRel a reverse) (rank_simple a reverse) ∧
    (∀ j, A.length ≤ j → j < A.length + k →
      (rankdata a "min" reverse).getD ((rank_simple a reverse).getD j 0) 0 =
        ((A.length + 1 : ℕ) : ℚ) ∧
      (rankdata a "average" reverse).getD ((rank_simple a reverse).getD j 0) 0 =
        ((List.range' (A.length + 1) k).map (Nat.cast : ℕ → ℚ)).sum / (k : ℚ)) ∧
    rankdata [10, 20, 20, 5] "average" true = [3, 3 / 2, 3 / 2, 4] ∧
    rankdata [10, 20, 20, 5] "min" true = [3, 1, 1, 4] ∧
    (∀ method r2, rankdata [] method r2 = []) ∧
    (∀ x method r2, rankdata [x] method r2 = [1]) := by
  refine ⟨?_, rank_simple_perm a reverse, rank_simple_sorted a reverse, ?_, ?_, by decide,
    fun method r2 => rfl, ?_⟩
  · intro method
    unfold rankdata
    rw [List.range_eq_range']
    have h := rankLoop_length (rank_svec a reverse) (rank_simple a reverse)
      (method == "min") a.length a.length 0 ⟨0, 0, 0, List.replicate a.length 0⟩
    rw [h]
    simp
  · intro j hj1 hj2
    constructor
    · have h := rankdata_group_value a reverse "min" A B v k hk hdec hA hB j hj1 hj2
      rw [show (("min" == "min") : Bool) = true from rfl] at h
      simpa using h
    · have h := rankdata_group_value a reverse "average" A B v k hk hdec hA hB j hj1 hj2
      rw [show (("average" == "min") : Bool) = false from rfl] at h
      simp only [Bool.false_eq_true, if_false] at h
      rw [h, ← Nat.cast_list_sum, sum_range'_shift]
      have hk0 : (k : ℚ) ≠ 0 := Nat.cast_ne_zero.mpr (by omega)
      push_cast
      field_simp
  · have hne : ("average" = "min") = False := by simp
    norm_num [rankdata, rankStep, rank_svec, rank_simple, rankRel, writeRange, runBreak,
      List.range_succ, List.insertionSort, List.orderedInsert, List.range', hne,
      List.set, List.replicate]
  · intro x method r2
    rcases Bool.eq_false_or_eq_true (method == "min") with hm | hm <;>
      norm_num [rankdata, rankStep, rank_svec, rank_simple, writeRange, runBreak, hm,
        List.range', List.range_succ, List.insertionSort, List.orderedInsert,
        List.set, List.replicate]

/-- C6 witness: the spec example `[10, 20, 20, 5]`, descending, with the
tied 20s forming the group `replicate 2 20` at sorted positions 0 and 1:
the original index of the first 20 (index 1) receives rank 1 under
`"min"` and `(1 + 2)/2 = 1.5` under `"average"`. -/
theorem rankdata_spec_witness :
    (0 : ℕ) < 2 ∧
    rank_svec [10, 20, 20, 5] true = [] ++ (List.replicate 2 20 ++ [10, 5]) ∧
    (rankdata [10, 20, 20, 5] "min" true).getD
        ((rank_simple [10, 20, 20, 5] true).getD 0 0) 0 =
      ((([] : List ℚ).length + 1 : ℕ) : ℚ) ∧
    (rankdata [10, 20, 20, 5] "average" true).getD
        ((rank_simple [10, 20, 20, 5] true).getD 0 0) 0 =
      ((List.range' (([] : List ℚ).length + 1) 2).map (Nat.cast : ℕ → ℚ)).sum / (2 : ℚ) := by
  have h := rankdata_spec [10, 20, 20, 5] true [] [10, 5] 20 2 (by decide) (by decide)
    (fun x hx => by simp at hx)
    (fun x hx => by
      have h10 : x = 10 := by
        have := hx
        simp at this
        exact this.symm
      rw [h10]
      decide)
  exact ⟨by decide, by decide, (h.2.2.2.1 0 (by decide) (by decide)).1,
    (h.2.2.2.1 0 (by decide) (by decide)).2⟩

end BFP
